import Mathlib

/-!
Verification of the omniconfig Resolution Engine (the node-based core under
src/omniconfig/core and src/omniconfig/resolution) against its specification.

The Python code is shallowly embedded:

* dynamic values are the tagged sum `Val` (null, bool, int, str, list, dict,
  dataclass instance), as suggested by the spec's design notes; `float`,
  `enum`, `set`, `tuple` and custom-class instances are outside the modeled
  value universe (no claim under verification exercises them);
* declared types are the universe `Ty` (Any, NoneType, bool, int, str,
  list/List T, dict/Dict K V, dataclass schemas carried inline);
  `Union`, `tuple` and enum types are outside the modeled type universe;
  a raw `list` is represented as `Ty.tlist Ty.any` (raw `dict` likewise),
  which behaves identically to the parameterised form in every embedded
  operation (classification, pruning, element extraction, coercion);
* Python exceptions become the sum `Err`; `raise` becomes `Except.error`;
* mutable `ResolutionNode` objects become pure values; a mutating method
  returns the updated node;
* user-supplied custom factories/reducers are an environment parameter
  (they are arbitrary caller code in Python as well);
* Python `dict`s used as ordered maps become association lists in insertion
  order; Python `set`s become duplicate-free lists (the engine's results
  proved here are independent of set iteration order).
-/

namespace Omniconfig

/-- A path segment: a mapping key (string) or a sequence index (int),
mirroring `Tuple[Union[str, int], ...]` paths in the source. -/
inductive Seg where
  | key (s : String)
  | idx (n : Int)
deriving DecidableEq, Repr

/-- Python `str(segment)`: identity on strings, decimal rendering on ints. -/
def Seg.str : Seg → String
  | .key s => s
  | .idx n => toString n

/-- Python `value.startswith(p)` (the Lean library function does not reduce
in the kernel, so prefix testing is modeled on the character lists). -/
def pyStartsWith (s p : String) : Bool := p.data.isPrefixOf s.data

/-- Python `value.lower()` on the character list. -/
def pyLower (s : String) : String := String.mk (s.data.map Char.toLower)

/-- `REFERENCE_SEPARATOR` from core/reference.py. -/
def REFERENCE_SEPARATOR : String := "::"

/-- `is_reference_format` from core/reference.py:
`value.startswith(REFERENCE_SEPARATOR)`. -/
def is_reference_format (value : String) : Bool :=
  pyStartsWith value REFERENCE_SEPARATOR

/-- `path_to_reference` from core/reference.py: empty path renders to "",
otherwise "::" ++ "::"-joined segment strings. -/
def path_to_reference (path : List Seg) : String :=
  match path with
  | [] => ""
  | p => REFERENCE_SEPARATOR ++ String.intercalate REFERENCE_SEPARATOR (p.map Seg.str)

/-- The exceptions the resolution core can raise (core/exceptions.py), plus
the two raw Python exception kinds that appear at raise sites in the
resolution code: `KeyError` (node.py copy_with_update, dependency.py
set_node), `ValueError` (types.py flatten/classify_into_buckets on an
unregistered type hint, int conversion of a list slot name in set_node)
and `IndexError` (out-of-range list slot in set_node).  `CircularReferenceError` carries the concrete
cycle found by `_find_cycle` (`none` models the generic fallback message). -/
inductive Err where
  | configParseError
  | configReferenceError
  | circularReferenceError (cycle : Option (List String))
  | configFactoryError
  | typeRegistrationError
  | configValidationError
  | keyError
  | valueError
  | indexError
deriving DecidableEq, Repr

/-- `TypeCategory` from core/types.py. -/
inductive TypeCategory where
  | primitive
  | dataclass
  | container
  | union
  | custom
deriving DecidableEq, Repr

mutual
/-- The modeled universe of declared Python types (see the header comment
for its scope).  A dataclass schema carries its field list inline; the
Python runtime identifies a dataclass by object identity, modeled here as
equality of name and field list. -/
inductive Ty where
  | any
  | tnone
  | tbool
  | tint
  | tstr
  | tlist (elem : Ty)
  | tdict (velem : Ty)
  | tdc (name : String) (fields : FieldList)
deriving DecidableEq, Repr

/-- The fields of a dataclass schema, in declaration order.  `hasDefault`
models `field.default is not MISSING or field.default_factory is not
MISSING`; `init` models `field.init`.  Default *values* are not carried:
the claims under verification never materialise a default. -/
inductive FieldList where
  | nil
  | cons (fname : String) (fty : Ty) (hasDefault : Bool) (init : Bool) (rest : FieldList)
deriving DecidableEq, Repr
end

/-- `CustomTypeInfo` from core/types.py.  The factory and reducer are
identified by name; an environment maps names to the (arbitrary) user
functions. -/
structure CustomTypeInfo where
  type_hint : Ty
  factory : String
  reducer : String
deriving DecidableEq, Repr

/-- `TypeInfo` from core/types.py. -/
structure TypeInfo where
  type_ : Ty
  custom : Option CustomTypeInfo := none
deriving DecidableEq, Repr

/-- `TypeInfo.type_hint`: the declared type, or the custom wire-level type. -/
def TypeInfo.type_hint (ti : TypeInfo) : Ty :=
  match ti.custom with
  | none => ti.type_
  | some c => c.type_hint

/-- A type chain: `Tuple[TypeInfo, ...]` in the source. -/
abbrev Chain := List TypeInfo

mutual
/-- The modeled universe of runtime values (spec §9's tagged sum).
A dataclass instance carries its class (`Ty.tdc ...`) and its field values
in field order. -/
inductive Val where
  | vnone
  | vbool (b : Bool)
  | vint (n : Int)
  | vstr (s : String)
  | vlist (items : VList)
  | vdict (entries : VDict)
  | vinst (cls : Ty) (fields : VDict)
deriving DecidableEq, Repr

inductive VList where
  | nil
  | cons (v : Val) (rest : VList)
deriving DecidableEq, Repr

inductive VDict where
  | nil
  | cons (k : Seg) (v : Val) (rest : VDict)
deriving DecidableEq, Repr
end

/-- Dictionary key lookup (`key in d` / `d[key]`). -/
def VDict.lookup : VDict → Seg → Option Val
  | .nil, _ => none
  | .cons k v rest, k' => if k = k' then some v else rest.lookup k'

/-- Key membership (`key in d`). -/
def VDict.hasKey (d : VDict) (k : Seg) : Bool := (d.lookup k).isSome

/-- The keys of a dictionary in insertion order. -/
def VDict.keys : VDict → List Seg
  | .nil => []
  | .cons k _ rest => k :: rest.keys

/-- The number of entries (`len(d)`); keys are assumed unique as in a
Python dict. -/
def VDict.length : VDict → Nat
  | .nil => 0
  | .cons _ _ rest => rest.length + 1

def VList.toList : VList → List Val
  | .nil => []
  | .cons v rest => v :: rest.toList

def VList.length : VList → Nat
  | .nil => 0
  | .cons _ rest => rest.length + 1

/-- The reserved override keys `("_reference_", "_overwrite_")`. -/
def reservedKeys : List Seg := [Seg.key "_reference_", Seg.key "_overwrite_"]

/-- Python truthiness `bool(value)` on the modeled universe.  A dataclass
instance is always truthy (no `__bool__`/`__len__`). -/
def pyTruthy : Val → Bool
  | .vnone => false
  | .vbool b => b
  | .vint n => n != 0
  | .vstr s => s != ""
  | .vlist l => l.length != 0
  | .vdict d => d.length != 0
  | .vinst _ _ => true

/-- The fields of a schema as a list of
(name, type, hasDefault, init) tuples. -/
def FieldList.toList : FieldList → List (String × Ty × Bool × Bool)
  | .nil => []
  | .cons n t d i rest => (n, t, d, i) :: rest.toList

/-- `get_fields(cls, init_only=True)` from core/utils.py restricted to the
modeled universe (no pseudo-fields): the init fields in order. -/
def FieldList.initFields (fl : FieldList) : List (String × Ty × Bool × Bool) :=
  fl.toList.filter (fun f => f.2.2.2)

/-- Field lookup by name (`get_type_hints(cls)[key]` / attribute access). -/
def FieldList.lookupTy : FieldList → String → Option Ty
  | .nil, _ => none
  | .cons n t _ _ rest, n' => if n = n' then some t else rest.lookupTy n'

/-- The names of required init fields: init fields whose default and
default factory are both MISSING (types.py try_prune_type_chains). -/
def FieldList.requiredInitFields (fl : FieldList) : List String :=
  (fl.initFields.filter (fun f => !f.2.2.1)).map (fun f => f.1)

mutual
/-- Python `repr(value)` on the modeled universe (used only through
`str(value)` on containers, which no claim evaluates). -/
def pyRepr : Val → String
  | .vnone => "None"
  | .vbool true => "True"
  | .vbool false => "False"
  | .vint n => toString n
  | .vstr s => "\x27" ++ s ++ "\x27"
  | .vlist l => "[" ++ String.intercalate ", " (pyReprList l) ++ "]"
  | .vdict d => "dict(" ++ String.intercalate ", " (pyReprDict d) ++ ")"
  | .vinst cls fs =>
    (match cls with | .tdc n _ => n | _ => "object") ++
      "(" ++ String.intercalate ", " (pyReprDict fs) ++ ")"

def pyReprList : VList → List String
  | .nil => []
  | .cons v rest => pyRepr v :: pyReprList rest

def pyReprDict : VDict → List String
  | .nil => []
  | .cons k v rest => (Seg.str k ++ ": " ++ pyRepr v) :: pyReprDict rest
end

/-- Python `str(value)`. -/
def pyStr : Val → String
  | .vnone => "None"
  | .vbool true => "True"
  | .vbool false => "False"
  | .vint n => toString n
  | .vstr s => s
  | v => pyRepr v

/-- Python `isinstance(value, ty)` on the modeled universe.  `bool` is a
subclass of `int`.  For a parameterised generic Python `isinstance` would
raise `TypeError`; the model returns the answer for the corresponding raw
container class (the claims under verification never reach that case with
a parameterised target). -/
def isinst (v : Val) (ty : Ty) : Bool :=
  match ty, v with
  | .tbool, .vbool _ => true
  | .tint, .vint _ => true
  | .tint, .vbool _ => true
  | .tstr, .vstr _ => true
  | .tnone, .vnone => true
  | .tlist _, .vlist _ => true
  | .tdict _, .vdict _ => true
  | .tdc n fl, .vinst (.tdc n' fl') _ => n = n' && fl = fl'
  | _, _ => false

/-- The custom type registry (`TypeSystem._registry`): association list from
declared type to its custom info, in registration order. -/
abbrev Registry := List (Ty × CustomTypeInfo)

/-- `TypeSystem.retrieve`: the registered `TypeInfo` for a type, if any. -/
def retrieve (reg : Registry) (ty : Ty) : Option TypeInfo :=
  match reg.find? (fun e => e.1 = ty) with
  | none => none
  | some e => some ⟨ty, some e.2⟩

/-- `TypeSystem.classify` (without field metadata, which no modeled caller
supplies): NoneType is primitive; a registered type is custom; containers,
dataclasses and primitives by shape; everything else (in the modeled
universe, `Any`) is custom. -/
def classify (reg : Registry) (ty : Ty) : TypeCategory :=
  match ty with
  | .tnone => .primitive
  | _ =>
    if (retrieve reg ty).isSome then .custom
    else
      match ty with
      | .tlist _ => .container
      | .tdict _ => .container
      | .tdc _ _ => .dataclass
      | .tbool => .primitive
      | .tint => .primitive
      | .tstr => .primitive
      | _ => .custom

/-- The recursive walk of `TypeSystem.flatten` (the modeled universe has no
unions, so each walk yields exactly one chain).  The fuel bounds custom
indirection; it is exhausted only by a cyclic registry, on which the
source would exhaust the Python stack instead (no claim involves one). -/
def flatten_dfs (reg : Registry) : Nat → Ty → Chain → Except Err (List Chain)
  | 0, _, _ => .error .valueError
  | fuel + 1, ty, chain =>
    match classify reg ty with
    | .custom =>
      match retrieve reg ty with
      | none => .error .valueError
      | some ti => flatten_dfs reg fuel ti.type_hint (chain ++ [ti])
    | _ => .ok [chain ++ [({ type_ := ty } : TypeInfo)]]

/-- `TypeSystem.flatten`: all type chains of a `TypeInfo`. -/
def flatten (reg : Registry) (ti : TypeInfo) : Except Err (List Chain) :=
  match ti.custom with
  | none => flatten_dfs reg (reg.length + 1) ti.type_ []
  | some c => flatten_dfs reg (reg.length + 1) c.type_hint [ti]

/-- `TypeSystem.extract_container_element_type`.  The fuel bounds custom
indirection exactly as in `flatten_dfs`. -/
def extract_container_element_type (reg : Registry) :
    Nat → Ty → Seg → Ty
  | 0, _, _ => .any
  | fuel + 1, ty, k =>
    if ty = .any then .any
    else
      match retrieve reg ty with
      | some ti => extract_container_element_type reg fuel ti.type_hint k
      | none =>
        match ty, k with
        | .tdc _ fl, .key s =>
          match fl.lookupTy s with
          | some t => t
          | none => .any
        | .tdc _ _, _ => .any
        | .tlist e, _ => e
        | .tdict ve, _ => ve
        | _, _ => .any

/-- The last entry of a chain (`chain[-1]`).  The source would raise
`IndexError` on an empty chain; the model returns an `Any` entry there
(every chain the engine produces is non-empty, and the theorems that touch
this function hypothesise non-empty chains). -/
def chainLeaf (c : Chain) : TypeInfo := c.getLastD { type_ := .any }

/-- `is_dataclass` on the modeled type universe. -/
def isDataclassTy : Ty → Bool
  | .tdc _ _ => true
  | _ => false

/-- Membership of the leaf type in the dict-container family
(`get_origin in _DICT_CONTAINER_TYPES or type_ in _RAW_DICT...`). -/
def isDictContainerTy : Ty → Bool
  | .tdict _ => true
  | _ => false

/-- Membership of the leaf type in the list-container family. -/
def isListContainerTy : Ty → Bool
  | .tlist _ => true
  | _ => false

/-- `try_prune_type_chains` from core/types.py.  The enum member test of
the primitive branch is omitted with the enum types themselves; on a
parameterised-generic leaf the primitive branch of the source would raise
`TypeError` from `issubclass`, which the model does not reproduce (no
claim reaches it). -/
def try_prune_type_chains (value : Val) (type_chains : List Chain) : List Chain :=
  match value with
  | .vdict d =>
    let dict_chains := type_chains.filter
      (fun c => isDataclassTy (chainLeaf c).type_ || isDictContainerTy (chainLeaf c).type_)
    let dataclass_chains := type_chains.filter (fun c => isDataclassTy (chainLeaf c).type_)
    if dict_chains.length = 1 then dict_chains
    else
      let matches_ := dataclass_chains.filter (fun c =>
        match (chainLeaf c).type_ with
        | .tdc _ fl => fl.requiredInitFields.all (fun f => d.hasKey (.key f))
        | _ => false)
      if dataclass_chains ≠ [] ∧ matches_ ≠ [] then matches_
      else if dict_chains.length = dataclass_chains.length then dict_chains
      else dict_chains.filter (fun c => !isDataclassTy (chainLeaf c).type_)
  | .vlist _ =>
    type_chains.filter (fun c => isListContainerTy (chainLeaf c).type_)
  | v =>
    type_chains.filter (fun c => isinst v (chainLeaf c).type_)

/-- The environment of user-supplied custom factory / reducer functions,
by name.  A function that raises is modeled by an `Except.error`. -/
abbrev FEnv := String → Val → Except Err Val

/-- Python `int(s)` on a string, restricted to canonical decimal literals
with an optional sign (the whitespace and underscore forms the Python
parser also accepts are not modeled; no claim parses an int from a
string). -/
def parseIntLit (s : String) : Option Int :=
  let digitsVal : List Char → Option Nat := fun cs =>
    if cs = [] then none
    else
      cs.foldl (fun acc c =>
        match acc with
        | none => none
        | some n => if c.isDigit then some (n * 10 + (c.toNat - 48)) else none)
        (some 0)
  match s.data with
  | c :: rest =>
    if c = Char.ofNat 45 then (digitsVal rest).map (fun n => -(n : Int))
    else if c = Char.ofNat 43 then (digitsVal rest).map (fun n => (n : Int))
    else (digitsVal s.data).map (fun n => (n : Int))
  | [] => none

/-- `FactorySystem._convert_primitive` from resolution/factory.py, for the
primitive targets in the modeled universe (bool, int, str; float is not
modeled).  An already-conforming value is returned unchanged (note a bool
is an instance of int); a string targeted at bool goes through the
lowercased true/false tables, every other value targeted at bool goes
through Python truthiness; `int()` and `str()` delegate to the standard
parses, and ValueError/TypeError become `ConfigFactoryError`. -/
def convert_primitive (value : Val) (target_type : Ty) : Except Err Val :=
  if isinst value target_type then .ok value
  else
    match target_type with
    | .tbool =>
      match value with
      | .vstr s =>
        let lower := pyLower s
        if lower = "true" ∨ lower = "yes" ∨ lower = "1" then .ok (.vbool true)
        else if lower = "false" ∨ lower = "no" ∨ lower = "0" then .ok (.vbool false)
        else .error .configFactoryError
      | _ => .ok (.vbool (pyTruthy value))
    | .tint =>
      match value with
      | .vstr s =>
        match parseIntLit s with
        | some n => .ok (.vint n)
        | none => .error .configFactoryError
      | _ => .error .configFactoryError
    | .tstr => .ok (.vstr (pyStr value))
    | _ => .ok value

/-- The kwargs assembly of `FactorySystem._create_dataclass`: walk the init
fields in order; copy a matching key from the input mapping; skip an
absent field that has a default; raise `ConfigFactoryError` for an absent
required field. -/
def buildKwargs : FieldList → VDict → Except Err VDict
  | .nil, _ => .ok .nil
  | .cons n _ hasDefault init rest, d =>
    if !init then buildKwargs rest d
    else
      match d.lookup (.key n) with
      | some v =>
        match buildKwargs rest d with
        | .error e => .error e
        | .ok kw => .ok (.cons (.key n) v kw)
      | none =>
        if hasDefault then buildKwargs rest d
        else .error .configFactoryError

/-- `FactorySystem._create_dataclass`.  Default values for absent defaulted
fields are not materialised in the constructed instance (the model carries
no default values); dataclass `__post_init__` hooks are outside the model,
so construction itself always succeeds. -/
def create_dataclass (value : Val) (cls : Ty) : Except Err Val :=
  if isinst value cls then .ok value
  else
    match value, cls with
    | .vdict d, .tdc _ fl =>
      match buildKwargs fl d with
      | .error e => .error e
      | .ok kwargs => .ok (.vinst cls kwargs)
    | _, _ => .error .configFactoryError

/-- `FactorySystem._apply_builtin_type`: None passes through, `Any` is the
identity, primitives / dataclasses / containers dispatch to their
coercions, and an unmatched target (in the modeled universe, `NoneType`)
is returned unchanged.  Python converts tuples to lists as well; tuples
are outside the modeled value universe. -/
def apply_builtin_type (value : Val) (target_type : Ty) : Except Err Val :=
  if value = .vnone then .ok .vnone
  else if target_type = .any then .ok value
  else
    match target_type with
    | .tbool => convert_primitive value target_type
    | .tint => convert_primitive value target_type
    | .tstr => convert_primitive value target_type
    | .tdc _ _ => create_dataclass value target_type
    | .tlist _ =>
      match value with
      | .vlist _ => .ok value
      | _ => .error .configFactoryError
    | .tdict _ =>
      match value with
      | .vdict _ => .ok value
      | _ => .error .configFactoryError
    | _ => .ok value

/-- The reversed walk of `FactorySystem._apply_type_chain`: the list
argument is the already-reversed chain; a custom entry applies its user
factory (any failure wrapped as `ConfigFactoryError`), a built-in entry
applies `_apply_builtin_type`. -/
def apply_chain_steps (env : FEnv) : List TypeInfo → Val → Except Err Val
  | [], result => .ok result
  | ti :: rest, result =>
    match ti.custom with
    | some c =>
      match env c.factory result with
      | .ok r => apply_chain_steps env rest r
      | .error _ => .error .configFactoryError
    | none =>
      match apply_builtin_type result ti.type_ with
      | .error e => .error e
      | .ok r => apply_chain_steps env rest r

/-- `FactorySystem._apply_type_chain`: apply the chain from last to first. -/
def apply_type_chain (env : FEnv) (value : Val) (type_chain : Chain) : Except Err Val :=
  apply_chain_steps env type_chain.reverse value

mutual
/-- The content of a resolution node: a primitive value, a mapping of child
nodes, or a sequence of child nodes (resolution/node.py). -/
inductive RContent where
  | prim (v : Val)
  | dict (entries : NDict)
  | arr (items : NList)
deriving DecidableEq, Repr

/-- Mapping content: ordered association of segment keys to child nodes. -/
inductive NDict where
  | nil
  | cons (k : Seg) (node : ResolutionNode) (rest : NDict)
deriving DecidableEq, Repr

/-- Sequence content: ordered child nodes. -/
inductive NList where
  | nil
  | cons (node : ResolutionNode) (rest : NList)
deriving DecidableEq, Repr

/-- `ResolutionNode` from resolution/node.py.  The derived `name` field is
not stored: it is always `path_to_reference path` (established by
`__post_init__`), so the model computes it.  `aliases` is a set in the
source; the model keeps a duplicate-free list (only membership is ever
consulted). -/
inductive ResolutionNode where
  | mk (content : RContent) (reference : String) (value : Option Val)
       (type_chains : List Chain) (path : List Seg) (aliases : List String)
       (resolved : String)
deriving DecidableEq, Repr
end

def ResolutionNode.content : ResolutionNode → RContent
  | .mk c _ _ _ _ _ _ => c

def ResolutionNode.reference : ResolutionNode → String
  | .mk _ r _ _ _ _ _ => r

def ResolutionNode.value : ResolutionNode → Option Val
  | .mk _ _ v _ _ _ _ => v

def ResolutionNode.type_chains : ResolutionNode → List Chain
  | .mk _ _ _ tc _ _ _ => tc

def ResolutionNode.path : ResolutionNode → List Seg
  | .mk _ _ _ _ p _ _ => p

def ResolutionNode.aliases : ResolutionNode → List String
  | .mk _ _ _ _ _ a _ => a

def ResolutionNode.resolved : ResolutionNode → String
  | .mk _ _ _ _ _ _ r => r

/-- The derived `name` attribute: `path_to_reference(self.path)`. -/
def ResolutionNode.name (n : ResolutionNode) : String := path_to_reference n.path

/-- `ResolutionNode.is_root`. -/
def ResolutionNode.is_root (n : ResolutionNode) : Bool := n.path = []

/-- `ResolutionNode.is_reference`: `bool(self.reference)`. -/
def ResolutionNode.is_reference (n : ResolutionNode) : Bool := n.reference != ""

/-- `ResolutionNode.is_factoried`: `self.value is not MISSING`. -/
def ResolutionNode.is_factoried (n : ResolutionNode) : Bool := n.value.isSome

/-- `ResolutionNode.matches_name`. -/
def ResolutionNode.matches_name (n : ResolutionNode) (name : String) : Bool :=
  n.name = name || n.aliases.contains name

/-- `self.aliases.add(a)` (set insertion). -/
def ResolutionNode.addAlias : ResolutionNode → String → ResolutionNode
  | .mk c r v tc p al rs, a =>
    .mk c r v tc p (if al.contains a then al else al ++ [a]) rs

/-- The `ResolutionNode(...)` constructor together with its
`__post_init__` validation: a non-empty reference must start with "::",
and must not start with the node name (reference strings are always
strings in the model, so the non-string check cannot fire). -/
def ResolutionNode.make (content : RContent) (reference : String)
    (value : Option Val) (type_chains : List Chain) (path : List Seg)
    (aliases : List String) : Except Err ResolutionNode :=
  if reference != "" && !is_reference_format reference then
    .error .configReferenceError
  else if reference != "" && pyStartsWith reference (path_to_reference path) then
    .error .configReferenceError
  else
    .ok (.mk content reference value type_chains path aliases "")

def NDict.lookup : NDict → Seg → Option ResolutionNode
  | .nil, _ => none
  | .cons k n rest, k' => if k = k' then some n else rest.lookup k'

def NDict.hasKey (d : NDict) (k : Seg) : Bool := (d.lookup k).isSome

def NDict.keys : NDict → List Seg
  | .nil => []
  | .cons k _ rest => k :: rest.keys

def NDict.length : NDict → Nat
  | .nil => 0
  | .cons _ _ rest => rest.length + 1

def NDict.values : NDict → List ResolutionNode
  | .nil => []
  | .cons _ n rest => n :: rest.values

def NList.toList : NList → List ResolutionNode
  | .nil => []
  | .cons n rest => n :: rest.toList

def NList.length : NList → Nat
  | .nil => 0
  | .cons _ rest => rest.length + 1

def NList.get : NList → Nat → Option ResolutionNode
  | .nil, _ => none
  | .cons n _, 0 => some n
  | .cons _ rest, i + 1 => rest.get i

/-- `len(content) - int("_reference_" in content) - int("_overwrite_" in
content)` from resolve_reference / copy_with_update, as Python integer
arithmetic. -/
def NDict.nonReservedMeasure (d : NDict) : Int :=
  (d.length : Int) - (if d.hasKey (.key "_reference_") then 1 else 0)
    - (if d.hasKey (.key "_overwrite_") then 1 else 0)

/-- Append a key/value entry at the end of a dict (Python assignment of a
fresh key appends in insertion order). -/
def appendEntry : VDict → Seg → Val → VDict
  | .nil, k, v => .cons k v .nil
  | .cons k0 v0 rest, k, v => .cons k0 v0 (appendEntry rest k v)

mutual
/-- `ResolutionNode.materialize` from resolution/node.py: the factoried
value when present (and requested), else the content with children
materialized, re-inserting the `_reference_` marker in the
before-factory mode. -/
def ResolutionNode.materialize : ResolutionNode → Bool → Val
  | .mk content reference value _ _ _ _, after_factory =>
    match value, after_factory with
    | some v, true => v
    | _, _ =>
      match content with
      | .dict d =>
        let entries := materializeDict d after_factory
        if !after_factory && reference != "" then
          .vdict (appendEntry entries (.key "_reference_") (.vstr reference))
        else .vdict entries
      | .arr l => .vlist (materializeList l after_factory)
      | .prim v => if !after_factory && reference != "" then .vstr reference else v

def materializeDict (d : NDict) (after_factory : Bool) : VDict :=
  match d with
  | .nil => .nil
  | .cons k node rest =>
    if reservedKeys.contains k then materializeDict rest after_factory
    else .cons k (node.materialize after_factory) (materializeDict rest after_factory)

def materializeList (l : NList) (after_factory : Bool) : VList :=
  match l with
  | .nil => .nil
  | .cons node rest => .cons (node.materialize after_factory) (materializeList rest after_factory)
end

/-- Concatenation of node dictionaries (update-only keys are appended after
the merged keys, as in the source's two loops). -/
def ndictAppend : NDict → NDict → NDict
  | .nil, e => e
  | .cons k n rest, e => .cons k n (ndictAppend rest e)

/-- The second loop of the mapping branch of `copy_with_update`: keys of
the update that are neither reserved nor present in the original are
inserted verbatim, in update order. -/
def cwuExtraKeys : NDict → NDict → NDict
  | .nil, _ => .nil
  | .cons k n rest, sd =>
    if reservedKeys.contains k || sd.hasKey k then cwuExtraKeys rest sd
    else .cons k n (cwuExtraKeys rest sd)

/-- `max(int(k) for k in update_node.content if k not reserved)` from the
sequence branch of `copy_with_update`: `none` models the ValueError that
the bare `except` in the source turns into a KeyError (a non-integer
string key, or no non-reserved key at all). -/
def cwuMaxIndex (ud : NDict) : Option Int :=
  let rec go : NDict → Option Int → Option Int
    | .nil, acc => acc
    | .cons k _ rest, acc =>
      if reservedKeys.contains k then go rest acc
      else
        match k with
        | .idx n => go rest (some (max n (acc.getD n)))
        | .key s =>
          match parseIntLit s with
          | some n => go rest (some (max n (acc.getD n)))
          | none => none
  go ud none

/-- The two-step index probe used by the sequence branch of
`copy_with_update`: the integer key first, then its string form. -/
def cwuLookupIdx (ud : NDict) (j : Nat) : Option ResolutionNode :=
  match ud.lookup (.idx (j : Int)) with
  | some n => some n
  | none => ud.lookup (.key (toString (j : Int)))

/-- The gap-filling loop of the sequence branch of `copy_with_update`:
append the update's entries for positions `start .. maxIdx`, trying the
integer key then its string form; a missing position raises KeyError. -/
def cwuFill (ud : NDict) : Nat → Nat → Except Err NList
  | _, 0 => .ok .nil
  | j, count + 1 =>
    match cwuLookupIdx ud j with
    | none => .error .keyError
    | some node =>
      match cwuFill ud (j + 1) count with
      | .error e => .error e
      | .ok rest => .ok (.cons node rest)

def NList.append : NList → NList → NList
  | .nil, l => l
  | .cons n rest, l => .cons n (rest.append l)

mutual
/-- `ResolutionNode.copy_with_update` from resolution/node.py, merging an
update node (`update_node`) onto this node.  A non-mapping or
reserved-only update replaces the node (refusing reference updates);
mapping-on-mapping merges recursively; mapping-on-sequence treats integer
(or integer-string) keys as indices and extends the sequence up to the
largest referenced index, raising KeyError on gaps or non-integer keys;
the merged node takes the update's type chains, path and aliases.  (The
source mutates the aliases of shared original children in place; the
model records the added alias on the copy placed in the merged content,
the only place the resolution pass reads it.) -/
def ResolutionNode.copy_with_update : ResolutionNode → ResolutionNode → Except Err ResolutionNode
  | .mk scontent _ _ _ _ _ _, update_node =>
    match update_node.content with
    | .dict ud =>
      if ud.nonReservedMeasure ≤ 0 then
        if update_node.is_reference then .error .configReferenceError
        else .ok update_node
      else
        match scontent with
        | .dict sd =>
          match cwuDict sd ud update_node with
          | .error e => .error e
          | .ok merged =>
            .ok (.mk (.dict (ndictAppend merged (cwuExtraKeys ud sd))) "" none
              update_node.type_chains update_node.path update_node.aliases "")
        | .arr sl =>
          match cwuList sl ud update_node 0 with
          | .error e => .error e
          | .ok processed =>
            match cwuMaxIndex ud with
            | none => .error .keyError
            | some max_index =>
              match cwuFill ud processed.length
                  ((max_index + 1 - (processed.length : Int)).toNat) with
              | .error e => .error e
              | .ok filled =>
                .ok (.mk (.arr (processed.append filled)) "" none update_node.type_chains
                  update_node.path update_node.aliases "")
        | .prim _ => .ok update_node
    | _ =>
      if update_node.is_reference then .error .configReferenceError
      else .ok update_node
termination_by structural s _ => s

/-- The first loop of the mapping branch: existing non-reserved keys keep
the original child (with an alias for the overriding path) when absent
from the update, and merge recursively when present. -/
def cwuDict : NDict → NDict → ResolutionNode → Except Err NDict
  | .nil, _, _ => .ok .nil
  | .cons k v rest, ud, update_node =>
    if reservedKeys.contains k then cwuDict rest ud update_node
    else
      match ud.lookup k with
      | none =>
        match cwuDict rest ud update_node with
        | .error e => .error e
        | .ok rest' =>
          .ok (.cons k (v.addAlias (path_to_reference (update_node.path ++ [k]))) rest')
      | some uv =>
        match v.copy_with_update uv with
        | .error e => .error e
        | .ok merged =>
          match cwuDict rest ud update_node with
          | .error e => .error e
          | .ok rest' => .ok (.cons k merged rest')

/-- The item loop of the sequence branch: each existing position is looked
up in the update under its integer key, then its string key; unmatched
items are kept (with an alias), matched items merge recursively. -/
def cwuList : NList → NDict → ResolutionNode → Nat → Except Err NList
  | .nil, _, _, _ => .ok .nil
  | .cons v rest, ud, update_node, i =>
    match ud.lookup (.idx (i : Int)) with
    | some uv =>
      match v.copy_with_update uv with
      | .error e => .error e
      | .ok merged =>
        match cwuList rest ud update_node (i + 1) with
        | .error e => .error e
        | .ok rest' => .ok (.cons merged rest')
    | none =>
      match ud.lookup (.key (toString ((i : Int)))) with
      | some uv =>
        match v.copy_with_update uv with
        | .error e => .error e
        | .ok merged =>
          match cwuList rest ud update_node (i + 1) with
          | .error e => .error e
          | .ok rest' => .ok (.cons merged rest')
      | none =>
        match cwuList rest ud update_node (i + 1) with
        | .error e => .error e
        | .ok rest' =>
          .ok (.cons (v.addAlias (path_to_reference (update_node.path ++ [.idx (i : Int)])))
            rest')
termination_by structural sl _ _ _ => sl
end

/-- Replace the `resolved` field (the assignment
`resolved_node.resolved = resolved` in resolve_reference). -/
def ResolutionNode.setResolved : ResolutionNode → String → ResolutionNode
  | .mk c r v tc p al _, rsv => .mk c r v tc p al rsv

/-- `ResolutionNode.resolve_reference` from resolution/node.py.  The
identity guard `resolved_node is not target_node` of the source is always
true on the path that reaches it (copy_with_update returns either the
update node or a freshly constructed node, never the target object), so
the model sets `resolved` unconditionally there. -/
def ResolutionNode.resolve_reference (self target_node : ResolutionNode) :
    Except Err ResolutionNode :=
  if !self.is_reference then .error .configReferenceError
  else if self.is_factoried then .error .configReferenceError
  else if !target_node.matches_name self.reference then .error .configReferenceError
  else if target_node.is_reference then .error .configReferenceError
  else
    match self.content with
    | .dict d =>
      if d.nonReservedMeasure ≤ 0 then .ok (target_node.addAlias self.name)
      else
        match target_node.copy_with_update self with
        | .error e => .error e
        | .ok resolved_node => .ok (resolved_node.setResolved self.reference)
    | _ => .ok (target_node.addAlias self.name)

/-- The chain-trying loop of `FactorySystem.apply`: skip empty chains, set
aside `Any`-leaf chains as the fallback, attempt the rest in order; the
result is (first success with its chain, last error, last Any chain). -/
def tryChains (env : FEnv) (value : Val) :
    List Chain → Option Err → Option Chain →
      (Option (Val × Chain)) × Option Err × Option Chain
  | [], last_error, any_chain => (none, last_error, any_chain)
  | c :: rest, last_error, any_chain =>
    match c.getLast? with
    | none => tryChains env value rest last_error any_chain
    | some ti =>
      if ti.type_ = .any then tryChains env value rest last_error (some c)
      else
        match apply_type_chain env value c with
        | .ok r => (some (r, c), last_error, any_chain)
        | .error e => tryChains env value rest (some e) any_chain

mutual
/-- `FactorySystem.apply` from resolution/factory.py: an already factoried
node is returned unchanged; a reference node is refused; otherwise the
children are factoried first, the node's materialized value is computed,
and the type chains are tried in order, keeping only the successful chain
(or the `Any` fallback, or no chain). -/
def FactorySystem.apply (env : FEnv) : ResolutionNode → Except Err ResolutionNode
  | .mk content reference value type_chains path aliases rsv =>
    if value.isSome then .ok (.mk content reference value type_chains path aliases rsv)
    else if reference != "" then .error .configFactoryError
    else
      match applyContentChildren env content with
      | .error e => .error e
      | .ok content' =>
        let v := (ResolutionNode.mk content' reference none type_chains path aliases rsv).materialize true
        if type_chains = [] then
          .ok (.mk content' reference (some v) type_chains path aliases rsv)
        else
          match tryChains env v type_chains none none with
          | (some (r, c), _, _) =>
            .ok (.mk content' reference (some r) [c] path aliases rsv)
          | (none, last_error, any_chain) =>
            if last_error.isSome && any_chain.isNone then .error .configFactoryError
            else
              .ok (.mk content' reference (some v)
                (match any_chain with | some c => [c] | none => []) path aliases rsv)

/-- The children loop at the head of `FactorySystem.apply`: factory every
child of the content first (every child is a node in the model, so the
source's isinstance guard always holds). -/
def applyContentChildren (env : FEnv) : RContent → Except Err RContent
  | .prim v => .ok (.prim v)
  | .dict d =>
    match applyDictChildren env d with
    | .error e => .error e
    | .ok d' => .ok (.dict d')
  | .arr l =>
    match applyListChildren env l with
    | .error e => .error e
    | .ok l' => .ok (.arr l')

def applyDictChildren (env : FEnv) : NDict → Except Err NDict
  | .nil => .ok .nil
  | .cons k node rest =>
    match FactorySystem.apply env node with
    | .error e => .error e
    | .ok node' =>
      match applyDictChildren env rest with
      | .error e => .error e
      | .ok rest' => .ok (.cons k node' rest')

def applyListChildren (env : FEnv) : NList → Except Err NList
  | .nil => .ok .nil
  | .cons node rest =>
    match FactorySystem.apply env node with
    | .error e => .error e
    | .ok node' =>
      match applyListChildren env rest with
      | .error e => .error e
      | .ok rest' => .ok (.cons node' rest')
end

/-- Reference detection at the head of `ResolutionNode.build`: a string in
reference format is a pure reference; a mapping holding `_reference_`
must hold a well-formed reference string there (else ConfigParseError). -/
def detectReference (data : Val) : Except Err String :=
  match data with
  | .vstr s => .ok (if is_reference_format s then s else "")
  | .vdict d =>
    match d.lookup (.key "_reference_") with
    | none => .ok ""
    | some (.vstr r) =>
      if is_reference_format r then .ok r else .error .configParseError
    | some _ => .error .configParseError
  | _ => .ok ""

/-- Lookup of a path in the `type_infos` map (`path in type_infos`). -/
def assocFindTI (type_infos : List (List Seg × TypeInfo)) (path : List Seg) :
    Option TypeInfo :=
  match type_infos.find? (fun e => e.1 = path) with
  | none => none
  | some e => some e.2

/-- The parent-chain fallback of `ResolutionNode.build`: for each parent
chain, extract the element type at the final path segment from the
chain's leaf type hint; `Any` contributes a single `Any` chain, any other
type contributes its flattened chains (registry consulted first). -/
def buildChainsFromParentGo (reg : Registry) (k : Seg) :
    List Chain → List Chain → Except Err (List Chain)
  | [], acc => .ok acc
  | pc :: pcs, acc =>
    let th := extract_container_element_type reg (reg.length + 1) (chainLeaf pc).type_hint k
    if th = .any then buildChainsFromParentGo reg k pcs (acc ++ [[({ type_ := .any } : TypeInfo)]])
    else
      match flatten reg ((retrieve reg th).getD { type_ := th }) with
      | .error e => .error e
      | .ok fl => buildChainsFromParentGo reg k pcs (acc ++ fl)

def buildChainsFromParent (reg : Registry) (pcs : List Chain) (k : Seg) :
    Except Err (List Chain) :=
  buildChainsFromParentGo reg k pcs []

mutual
/-- `ResolutionNode.build` from resolution/node.py: detect a reference
marker, determine the node's type chains (explicit type info for the
path, else element extraction from the parent's chains, else an error for
a non-root node), prune multiple chains against a non-reference value,
then build children (reserved keys stripped) and construct the node. -/
def ResolutionNode.build (type_infos : List (List Seg × TypeInfo)) (reg : Registry) :
    Val → List Seg → List Chain → Except Err ResolutionNode
  | data, path, parent_type_chains =>
    match detectReference data with
    | .error e => .error e
    | .ok reference =>
      match
        (match assocFindTI type_infos path with
         | some ti => flatten reg ti
         | none =>
           if parent_type_chains ≠ [] then
             buildChainsFromParent reg parent_type_chains (path.getLastD (.key ""))
           else if path ≠ [] then .error .configParseError
           else .ok []) with
      | .error e => .error e
      | .ok chains0 =>
        let type_chains :=
          if reference = "" ∧ chains0.length > 1 then
            try_prune_type_chains data chains0
          else chains0
        match data with
        | .vdict d =>
          match buildDictChildren type_infos reg d path type_chains with
          | .error e => .error e
          | .ok children =>
            ResolutionNode.make (.dict children) reference none type_chains path []
        | .vlist l =>
          match buildListChildren type_infos reg l path type_chains 0 with
          | .error e => .error e
          | .ok children =>
            ResolutionNode.make (.arr children) reference none type_chains path []
        | _ => ResolutionNode.make (.prim data) reference none type_chains path []

def buildDictChildren (type_infos : List (List Seg × TypeInfo)) (reg : Registry) :
    VDict → List Seg → List Chain → Except Err NDict
  | .nil, _, _ => .ok .nil
  | .cons k v rest, path, tcs =>
    if reservedKeys.contains k then buildDictChildren type_infos reg rest path tcs
    else
      match ResolutionNode.build type_infos reg v (path ++ [k]) tcs with
      | .error e => .error e
      | .ok child =>
        match buildDictChildren type_infos reg rest path tcs with
        | .error e => .error e
        | .ok rest' => .ok (.cons k child rest')

def buildListChildren (type_infos : List (List Seg × TypeInfo)) (reg : Registry) :
    VList → List Seg → List Chain → Nat → Except Err NList
  | .nil, _, _, _ => .ok .nil
  | .cons v rest, path, tcs, i =>
    match ResolutionNode.build type_infos reg v (path ++ [.idx (i : Int)]) tcs with
    | .error e => .error e
    | .ok child =>
      match buildListChildren type_infos reg rest path tcs (i + 1) with
      | .error e => .error e
      | .ok rest' => .ok (.cons child rest')
end

/-- The names of a node's content children, in content order. -/
def contentChildNames (n : ResolutionNode) : List String :=
  match n.content with
  | .dict d => d.values.map ResolutionNode.name
  | .arr l => l.toList.map ResolutionNode.name
  | .prim _ => []

/-- The dependency set of one node as built by
`DependencyGraph._build_unified_dependencies`: the reference target (for a
reference node) and every content child.  The source accumulates these
into a Python set; the list order is immaterial to every property proved
below. -/
def nodeDepList (n : ResolutionNode) : List String :=
  (if n.is_reference then [n.reference] else []) ++ contentChildNames n

mutual
/-- `DependencyGraph._collect_nodes`: walk the tree in preorder,
registering each node under its name; a name registered for a different
node is a duplicate-path error.  (The source compares object identity;
the model compares values, which agrees on every tree whose positions
hold distinct values, in particular on every tree the node builder
produces.) -/
def collectNodes : ResolutionNode → List (String × ResolutionNode) →
    Except Err (List (String × ResolutionNode))
  | node@(.mk content _ _ _ _ _ _), acc =>
    match acc.find? (fun e => e.1 = node.name) with
    | some e => if e.2 = node then .ok acc else .error .configParseError
    | none =>
      let acc' := acc ++ [(node.name, node)]
      match content with
      | .dict d => collectDict d acc'
      | .arr l => collectList l acc'
      | .prim _ => .ok acc'

def collectDict : NDict → List (String × ResolutionNode) →
    Except Err (List (String × ResolutionNode))
  | .nil, acc => .ok acc
  | .cons _ n rest, acc =>
    match collectNodes n acc with
    | .error e => .error e
    | .ok acc' => collectDict rest acc' 

def collectList : NList → List (String × ResolutionNode) →
    Except Err (List (String × ResolutionNode))
  | .nil, acc => .ok acc
  | .cons n rest, acc =>
    match collectNodes n acc with
    | .error e => .error e
    | .ok acc' => collectList rest acc' 
end

/-- `DependencyGraph._build_unified_dependencies` together with
`_add_dependency`: every dependency must name a collected node
(else ConfigReferenceError); the per-node dependency sets are kept as
duplicate-free lists. -/
def buildDependenciesGo (names : List String) :
    List (String × ResolutionNode) → Except Err (List (String × List String))
  | [] => .ok []
  | e :: rest =>
    let ds := nodeDepList e.2
    if ds.all (fun d => names.contains d) then
      match buildDependenciesGo names rest with
      | .error er => .error er
      | .ok l => .ok ((e.1, ds.dedup) :: l)
    else .error .configReferenceError

def buildDependencies (collected : List (String × ResolutionNode)) :
    Except Err (List (String × List String)) :=
  buildDependenciesGo (collected.map Prod.fst) collected

/-- One dependent's in-degree decrement from the inner loop of Kahn's
algorithm: decrement each listed dependent, enqueueing those that reach
zero (in-degrees are Python ints). -/
def processDeps : List String → (String → Int) → List String → (String → Int) × List String
  | [], indeg, queue => (indeg, queue)
  | a :: rest, indeg, queue =>
    let d := indeg a - 1
    processDeps rest (fun m => if m = a then d else indeg m)
      (if d = 0 then queue ++ [a] else queue)

/-- The while-loop of `_compute_topological_order`: pop from the queue,
emit, decrement dependents.  The fuel equals the number of nodes, which
the Kahn invariants below show is never exhausted before the queue
empties; the final queue is returned alongside for the proofs. -/
def kahnLoop (dependents : String → List String) :
    Nat → (String → Int) → List String → List String → List String × List String
  | 0, _, queue, processed => (processed, queue)
  | _ + 1, _, [], processed => (processed, [])
  | fuel + 1, indeg, n :: rest, processed =>
    let p := processDeps (dependents n) indeg rest
    kahnLoop dependents fuel p.1 p.2 (processed ++ [n])

/-- The reverse adjacency (`self.dependents`): the collected nodes that
list the given name among their dependencies. -/
def kahnDependents (names : List String) (deps : String → List String) :
    String → List String :=
  fun b => names.filter (fun a => (deps a).contains b)

/-- Kahn's algorithm as in `_compute_topological_order`: initial in-degrees
are the dependency-set sizes, the initial queue is the zero-degree nodes
in collection order, and the reverse adjacency is computed from the
dependency sets. -/
def kahnRun (names : List String) (deps : String → List String) :
    List String × List String :=
  kahnLoop (kahnDependents names deps) names.length
    (fun n => ((deps n).length : Int))
    (names.filter (fun n => (deps n).length = 0)) []

/-- `rec_stack[idx:]` where `idx` is the index of the first occurrence. -/
def dropUntil (n : String) : List String → List String
  | [] => []
  | x :: xs => if x = n then x :: xs else dropUntil n xs

/-- The dependency loop of the DFS: try each dependency in turn with the
given visitor, threading the visited set, stopping at the first cycle. -/
def dfsChildren (visit : String → List String → List String → Option (List String) × List String) :
    List String → List String → List String → Option (List String) × List String
  | [], _, visited => (none, visited)
  | d :: ds, stack, visited =>
    match visit d stack visited with
    | (some c, v) => (some c, v)
    | (none, v) => dfsChildren visit ds stack v

/-- The recursive `dfs` of `DependencyGraph._find_cycle`: a node already on
the recursion stack closes a cycle (the stack suffix from it plus the
node again); a visited node yields nothing; otherwise visit the node's
dependencies within the restricted set.  The fuel bounds the recursion
depth; the completeness lemma below shows the depth bound used by
`find_cycle` is never reached. -/
def dfsVisit (deps : String → List String) (S : List String) :
    Nat → String → List String → List String → Option (List String) × List String
  | 0, _, _, visited => (none, visited)
  | fuel + 1, n, stack, visited =>
    if stack.contains n then (some (dropUntil n stack ++ [n]), visited)
    else if visited.contains n then (none, visited)
    else dfsChildren (dfsVisit deps S fuel) ((deps n).filter (fun d => S.contains d))
      (stack ++ [n]) (n :: visited)

/-- `DependencyGraph._find_cycle`: run the DFS from each not-yet-visited
node of the restricted set (the source iterates a Python set; the model
iterates the restricted list in order, which is one admissible iteration
order). -/
def find_cycle (deps : String → List String) (S : List String) : Option (List String) :=
  go S []
where
  go : List String → List String → Option (List String)
    | [], _ => none
    | n :: rest, visited =>
      if visited.contains n then go rest visited
      else
        match dfsVisit deps S (S.length + 1) n [] visited with
        | (some c, _) => some c
        | (none, v) => go rest v

/-- `_compute_topological_order`: run Kahn's algorithm; on success the
emitted order, on a shortfall a CircularReferenceError carrying the cycle
found by the DFS over the unemitted set. -/
def compute_topological_order (names : List String) (deps : String → List String) :
    Except Err (List String) :=
  let processed := (kahnRun names deps).1
  if processed.length = names.length then .ok processed
  else
    .error (.circularReferenceError
      (find_cycle deps (names.filter (fun n => !processed.contains n))))

/-- The dependency graph after construction: the path-to-name table, the
name-to-node table in collection order, the dependency sets, and the
topological queue (as names; the source stores the node objects, which
the tables recover). -/
structure DependencyGraph where
  pathNames : List (List Seg × String)
  nodes : List (String × ResolutionNode)
  dependencies : List (String × List String)
  queue : List String
deriving DecidableEq, Repr

/-- The dependency set registered for a name (empty for unknown names, as
with the source's defaultdict). -/
def depsOfAssoc (dependencies : List (String × List String)) (nm : String) : List String :=
  match dependencies.find? (fun e => e.1 = nm) with
  | some e => e.2
  | none => []

/-- `DependencyGraph.__init__`: collect the tree, build the unified
dependencies, compute the topological order. -/
def DependencyGraph.build (root : ResolutionNode) : Except Err DependencyGraph :=
  match collectNodes root [] with
  | .error e => .error e
  | .ok collected =>
    match buildDependencies collected with
    | .error e => .error e
    | .ok dependencies =>
      match compute_topological_order (collected.map Prod.fst) (depsOfAssoc dependencies) with
      | .error e => .error e
      | .ok queue =>
        .ok { pathNames := collected.map (fun e => (e.2.path, e.1)),
              nodes := collected,
              dependencies := dependencies,
              queue := queue }

/-- The custom-indirection walk of `classify_into_buckets`: resolve a type
hint through the registry until a non-custom category is reached.  A
custom-classified hint with no registration raises ValueError, as in the
source (this is what makes a schema with a bare `Any` field fail the
scan).  The fuel bounds registry cycles. -/
def walkHintTerminal (reg : Registry) : Nat → Ty → Except Err Ty
  | 0, _ => .error .valueError
  | fuel + 1, ty =>
    match classify reg ty with
    | .custom =>
      match retrieve reg ty with
      | none => .error .valueError
      | some ti => walkHintTerminal reg fuel ti.type_hint
    | _ => .ok ty

mutual
def tySize : Ty → Nat
  | .tdc _ fl => fieldListSize fl + 1
  | .tlist e => tySize e + 1
  | .tdict e => tySize e + 1
  | _ => 1

def fieldListSize : FieldList → Nat
  | .nil => 0
  | .cons _ t _ _ rest => tySize t + fieldListSize rest + 1
end

/-- The field loop of `scan`: classify each field hint into buckets
(raising through `walkHintTerminal` as the source does) and recurse into
nested dataclass buckets with the given checker. -/
def scanFields (check : Ty → Except Err Unit) (reg : Registry) :
    FieldList → Except Err Unit
  | .nil => .ok ()
  | .cons _ fty _ _ rest =>
    match walkHintTerminal reg (reg.length + 1)
        ((retrieve reg fty).getD { type_ := fty }).type_hint with
    | .error e => .error e
    | .ok (.tdc n fl) =>
      match check (.tdc n fl) with
      | .error e => .error e
      | .ok _ => scanFields check reg rest
    | .ok _ => scanFields check reg rest

/-- `TypeSystem.scan` reduced to its failure behavior: in the model the
caches have no semantic content (no metadata customs are modeled), but
scanning still classifies every field's type hint into buckets — raising
ValueError through `classify_into_buckets` for an unregistered custom
hint — and recurses into nested dataclass buckets.  A non-dataclass
argument raises (TypeError in the source, mapped to valueError).  The
fuel bounds nested-schema depth. -/
def scan_check (reg : Registry) : Nat → Ty → Except Err Unit
  | 0, _ => .error .valueError
  | fuel + 1, ty =>
    match ty with
    | .tdc _ fl => scanFields (scan_check reg fuel) reg fl
    | _ => .error .valueError

/-- The field loop of `build_type_infos`: record each field path's
`TypeInfo`, recursing into single-dataclass buckets with the given
builder. -/
def btiFields (build : Ty → List Seg → List (List Seg × TypeInfo) → List (List Seg × TypeInfo))
    (reg : Registry) :
    FieldList → List Seg → List (List Seg × TypeInfo) → List (List Seg × TypeInfo)
  | .nil, _, acc => acc
  | .cons fname fty _ _ rest, path, acc =>
    let ti := (retrieve reg fty).getD { type_ := fty }
    let fpath := path ++ [Seg.key fname]
    let acc' := acc ++ [(fpath, ti)]
    let acc'' :=
      match walkHintTerminal reg (reg.length + 1) ti.type_hint with
      | .ok (.tdc n fl) => build (.tdc n fl) fpath acc'
      | _ => acc'
    btiFields build reg rest path acc''

/-- `TypeSystem.build_type_infos`: record a `TypeInfo` for every field path
of a dataclass, recursing into a field whose bucket holds exactly one
dataclass (with no unions in the modeled universe, exactly the fields
whose hint resolves to a dataclass through the registry).  The fuel
bounds nested-schema depth; the source recurses unboundedly. -/
def build_type_infos (reg : Registry) :
    Nat → Ty → List Seg → List (List Seg × TypeInfo) → List (List Seg × TypeInfo)
  | 0, _, _, acc => acc
  | fuel + 1, ty, path, acc =>
    match ty with
    | .tdc _ fl => btiFields (build_type_infos reg fuel) reg fl path acc
    | _ => acc

/-- The scope-to-schema map registered by the caller. -/
abbrev Configs := List (String × Ty)

/-- The type-info accumulation of `ResolutionState.__init__` step 2: for
each scope, `(scope,) -> TypeInfo(schema)` and the schema's nested field
paths. -/
def stateTypeInfos (reg : Registry) (configs : Configs) : List (List Seg × TypeInfo) :=
  configs.foldl (fun acc e =>
    build_type_infos reg (tySize e.2 + 1) e.2 [Seg.key e.1]
      (acc ++ [([Seg.key e.1], ({ type_ := e.2 } : TypeInfo))])) []

/-- `ResolutionState.__init__`: scan every registered schema, build the
type-info map, build the node tree, and construct the dependency graph. -/
def scanConfigs (reg : Registry) : Configs → Except Err Unit
  | [] => .ok ()
  | e :: rest =>
    match scan_check reg (tySize e.2 + 1) e.2 with
    | .error er => .error er
    | .ok _ => scanConfigs reg rest

def ResolutionState.init (data : Val) (configs : Configs) (reg : Registry) :
    Except Err (ResolutionNode × DependencyGraph) :=
  match scanConfigs reg configs with
  | .error e => .error e
  | .ok _ =>
    match ResolutionNode.build (stateTypeInfos reg configs) reg data [] [] with
    | .error e => .error e
    | .ok root =>
      match DependencyGraph.build root with
      | .error e => .error e
      | .ok graph => .ok (root, graph)

/-- The order property of a topological order: every dependency of an
emitted node is emitted strictly earlier. -/
def TopoSorted (deps : String → List String) (order : List String) : Prop :=
  ∀ i : Fin order.length, ∀ d ∈ deps (order.get i),
    ∃ j : Fin order.length, j.val < i.val ∧ order.get j = d

/-- A dependency cycle: a list of at least two node names whose first and
last entries coincide, each consecutive pair an edge (the successor a
dependency of the predecessor). -/
def IsCycle (deps : String → List String) (c : List String) : Prop :=
  2 ≤ c.length ∧ c.head? = c.getLast? ∧ List.Chain' (fun a b => b ∈ deps a) c

/-- An environment with no working custom factories (no claim needs any). -/
def envNone : FEnv := fun _ _ => .error .configFactoryError

-- ======================================================================
-- Concrete inputs used by the counterexamples and witnesses.
-- ======================================================================

/-- A node with two type chains whose value was already set before factory
application (constructible in the source, e.g. tests set node.value
directly). -/
def preFactoriedNode : ResolutionNode :=
  .mk (.prim (.vint 5)) "" (some (.vint 7))
    [[({ type_ := .tint } : TypeInfo)], [({ type_ := .tstr } : TypeInfo)]]
    [.key "a"] [] ""

/-- A plain unfactoried string node. -/
def plainStrNode : ResolutionNode :=
  .mk (.prim (.vstr "hello")) "" none [[({ type_ := .tstr } : TypeInfo)]] [.key "a"] [] ""

/-- A factoried target node (as a reference target normally is by the time
a reference to it is processed). -/
def targetNodeC5 : ResolutionNode :=
  .mk (.prim (.vstr "t")) "" (some (.vstr "t")) [[({ type_ := .tstr } : TypeInfo)]]
    [.key "shared"] [] ""

/-- A bare reference node pointing at `::shared`. -/
def refNodeC5 : ResolutionNode :=
  .mk (.prim (.vstr "::shared")) "::shared" none [] [.key "myref"] [] ""

/-- The schema `Simple {name: str}` used by the round-trip counterexample. -/
def simpleSchema : Ty := .tdc "Simple" (.cons "name" .tstr false true .nil)

/-- A legal `Simple` instance whose string field holds a reference-format
string. -/
def simpleInstRef : Val := .vinst simpleSchema (.cons (.key "name") (.vstr "::x") .nil)

/-- A three-node reference cycle under the root:
ref1 -> ::ref2 -> ::ref3 -> ::ref1. -/
def cycleRoot : ResolutionNode :=
  .mk (.dict
    (.cons (.key "ref1") (.mk (.prim (.vstr "::ref2")) "::ref2" none [] [.key "ref1"] [] "")
    (.cons (.key "ref2") (.mk (.prim (.vstr "::ref3")) "::ref3" none [] [.key "ref2"] [] "")
    (.cons (.key "ref3") (.mk (.prim (.vstr "::ref1")) "::ref1" none [] [.key "ref3"] [] "")
      .nil)))) "" none [] [] [] ""

/-- The three reference nodes of `cycleRoot`, named for the collected
table literal. -/
def cycleN1 : ResolutionNode :=
  .mk (.prim (.vstr "::ref2")) "::ref2" none [] [.key "ref1"] [] ""

def cycleN2 : ResolutionNode :=
  .mk (.prim (.vstr "::ref3")) "::ref3" none [] [.key "ref2"] [] ""

def cycleN3 : ResolutionNode :=
  .mk (.prim (.vstr "::ref1")) "::ref1" none [] [.key "ref3"] [] ""

/-- The node table collected from `cycleRoot`. -/
def collectedCycle : List (String × ResolutionNode) :=
  [("", cycleRoot), ("::ref1", cycleN1), ("::ref2", cycleN2), ("::ref3", cycleN3)]

/-- The unified dependency sets built from `cycleRoot`. -/
def dlCycle : List (String × List String) :=
  [("", ["::ref1", "::ref2", "::ref3"]), ("::ref1", ["::ref2"]),
   ("::ref2", ["::ref3"]), ("::ref3", ["::ref1"])]

/-- A two-node tree (root with one child) for the witnesses. -/
def smallChild : ResolutionNode :=
  .mk (.prim (.vstr "v1")) "" none [] [.key "root", .key "c1"] [] ""

def smallRoot : ResolutionNode :=
  .mk (.dict (.cons (.key "c1") smallChild .nil)) "" none [] [.key "root"] [] ""

/-- The dependency graph built from `smallRoot`. -/
def gSmall : DependencyGraph :=
  { pathNames := [([Seg.key "root"], "::root"),
                  ([Seg.key "root", Seg.key "c1"], "::root::c1")],
    nodes := [("::root", smallRoot), ("::root::c1", smallChild)],
    dependencies := [("::root", ["::root::c1"]), ("::root::c1", [])],
    queue := ["::root::c1", "::root"] }

/-- The loop invariant of Kahn's algorithm: emitted and pending nodes are
distinct collected nodes; pending nodes have all dependencies emitted;
the emitted list is topologically sorted and dependency-closed; and every
node neither emitted nor pending has an in-degree counter equal to its
number of unemitted dependencies, which is positive. -/
def KInv (names : List String) (deps : String → List String)
    (indeg : String → Int) (queue processed : List String) : Prop :=
  (processed ++ queue).Nodup
  ∧ (∀ x ∈ processed ++ queue, x ∈ names)
  ∧ (∀ a ∈ queue, ∀ d ∈ deps a, d ∈ processed)
  ∧ TopoSorted deps processed
  ∧ (∀ a ∈ processed, ∀ d ∈ deps a, d ∈ processed)
  ∧ (∀ a ∈ names, a ∉ processed → a ∉ queue →
      indeg a = (((deps a).filter (fun d => d ∉ processed)).length : Int)
      ∧ (deps a).filter (fun d => d ∉ processed) ≠ [])

-- ======================================================================
-- The round-trip universe for the serialize/resolve law: flat dataclass
-- schemas whose init fields carry primitive types, instantiated with
-- matching values (reference-format strings excluded, as the
-- counterexample forces).
-- ======================================================================

def tiOf (t : Ty) : TypeInfo := { type_ := t }

-- The node trees the round-trip produces: the original built tree (O), the
-- fully factoried tree (D), and the mid-run state (St) parameterized by
-- the processed names.

def leafD (scope fname : String) (t : Ty) (v : Val) : ResolutionNode :=
  .mk (.prim v) "" (some v) [[tiOf t]] [.key scope, .key fname] [] ""

def leavesD (scope : String) : FieldList → VDict → NDict
  | .cons n t _ _ frest, .cons _ v vrest =>
    .cons (.key n) (leafD scope n t v) (leavesD scope frest vrest)
  | _, _ => .nil

def scopeD (scope : String) (S : Ty) (fl : FieldList) (fields : VDict) : ResolutionNode :=
  .mk (.dict (leavesD scope fl fields)) "" (some (.vinst S fields)) [[tiOf S]]
    [.key scope] [] ""

def rootD (scope : String) (S : Ty) (fl : FieldList) (fields : VDict) : ResolutionNode :=
  .mk (.dict (.cons (.key scope) (scopeD scope S fl fields) .nil)) ""
    (some (.vdict (.cons (.key scope) (.vinst S fields) .nil))) [] [] [] ""

/-- C7 counterexample: with path `("a",)` and reference `"::a::b"`, the
reference is not a prefix of the node's own path name `"::a"`, yet
construction fails with ConfigReferenceError — the source rejects exactly
the opposite direction (name a prefix of the reference). -/
theorem c7_counterexample :
    ResolutionNode.make (.prim (.vstr "x")) "::a::b" none [] [Seg.key "a"] []
        = .error .configReferenceError
    ∧ pyStartsWith (path_to_reference [Seg.key "a"]) "::a::b" = false :=
  ⟨rfl, rfl⟩

/-- C7 amended: for a node constructed with a non-empty well-formed
reference string, `__post_init__` fails — always with
ConfigReferenceError — exactly when the node's own name (the reference
form of its path) is a textual prefix of the reference, i.e. the node
references itself or a path extending its own name; references to
ancestors and to unrelated positions are accepted. -/
theorem c7_amended (content : RContent) (value : Option Val) (tc : List Chain)
    (path : List Seg) (aliases : List String) (reference : String)
    (href : is_reference_format reference = true) :
    (ResolutionNode.make content reference value tc path aliases
        = .error .configReferenceError
      ↔ pyStartsWith reference (path_to_reference path) = true)
    ∧ (pyStartsWith reference (path_to_reference path) = false →
        ResolutionNode.make content reference value tc path aliases
          = .ok (.mk content reference value tc path aliases "")) := by
  have hne : (reference != "") = true := by
    rcases h : reference == "" with _ | _
    · simp [bne, h]
    · exfalso
      have : reference = "" := by simpa using h
      rw [this] at href
      exact absurd href (by decide)
  constructor
  · constructor
    · intro h
      by_contra hc
      simp only [Bool.not_eq_true] at hc
      simp [ResolutionNode.make, hne, href, hc] at h
    · intro h
      simp [ResolutionNode.make, hne, href, h]
  · intro h
    simp [ResolutionNode.make, hne, href, h]

/-- C7 witness: the amended characterisation applied at the self-reference
test case from the repository's own tests (path `("a","b")`, reference
`"::a::b"`), discharging the well-formedness hypothesis. -/
theorem c7_witness :
    (ResolutionNode.make (.prim (.vstr "x")) "::a::b" none []
        [Seg.key "a", Seg.key "b"] [] = .error .configReferenceError
      ↔ pyStartsWith "::a::b" (path_to_reference [Seg.key "a", Seg.key "b"]) = true)
    ∧ (pyStartsWith "::a::b" (path_to_reference [Seg.key "a", Seg.key "b"]) = false →
        ResolutionNode.make (.prim (.vstr "x")) "::a::b" none []
          [Seg.key "a", Seg.key "b"] []
          = .ok (.mk (.prim (.vstr "x")) "::a::b" none []
              [Seg.key "a", Seg.key "b"] [] "")) :=
  c7_amended (.prim (.vstr "x")) none [] [Seg.key "a", Seg.key "b"] [] "::a::b" (by decide)

/-- C8 counterexample: the integer 5 is neither a bool nor one of the
listed strings, yet boolean coercion returns True (Python truthiness)
instead of raising ConfigFactoryError. -/
theorem c8_counterexample :
    convert_primitive (.vint 5) .tbool = .ok (.vbool true) := rfl

/-- C8 amended: boolean coercion returns an existing bool unchanged;
strings are lowercased and mapped through the "true"/"yes"/"1" and
"false"/"no"/"0" tables, any other string raising ConfigFactoryError;
every non-bool non-string input is converted by Python truthiness
(`bool(value)`) instead of raising. -/
theorem c8_amended :
    (∀ b : Bool, convert_primitive (.vbool b) .tbool = .ok (.vbool b))
    ∧ (∀ s : String, (pyLower s = "true" ∨ pyLower s = "yes" ∨ pyLower s = "1") →
        convert_primitive (.vstr s) .tbool = .ok (.vbool true))
    ∧ (∀ s : String, (pyLower s = "false" ∨ pyLower s = "no" ∨ pyLower s = "0") →
        convert_primitive (.vstr s) .tbool = .ok (.vbool false))
    ∧ (∀ s : String,
        pyLower s ∉ (["true", "yes", "1", "false", "no", "0"] : List String) →
        convert_primitive (.vstr s) .tbool = .error .configFactoryError)
    ∧ (∀ v : Val, (∀ b, v ≠ .vbool b) → (∀ s, v ≠ .vstr s) →
        convert_primitive v .tbool = .ok (.vbool (pyTruthy v))) := by
  refine ⟨?_, ?_, ?_, ?_, ?_⟩
  · intro b
    simp [convert_primitive, isinst]
  · intro s h
    rcases h with h | h | h <;> simp [convert_primitive, isinst, h]
  · intro s h
    rcases h with h | h | h <;> simp [convert_primitive, isinst, h]
  · intro s h
    simp only [List.mem_cons, List.not_mem_nil, or_false, not_or] at h
    obtain ⟨h1, h2, h3, h4, h5, h6⟩ := h
    simp [convert_primitive, isinst, h1, h2, h3, h4, h5, h6]
  · intro v hb hs
    cases v with
    | vbool b => exact absurd rfl (hb b)
    | vstr s => exact absurd rfl (hs s)
    | vnone => simp [convert_primitive, isinst, pyTruthy]
    | vint n => simp [convert_primitive, isinst, pyTruthy]
    | vlist l => simp [convert_primitive, isinst, pyTruthy]
    | vdict d => simp [convert_primitive, isinst, pyTruthy]
    | vinst cls fs => simp [convert_primitive, isinst, pyTruthy]

/-- C8 witness: the amended characterisation applied at concrete inputs
("TRUE" lowercases into the true-table; None is falsy). -/
theorem c8_witness :
    convert_primitive (.vstr "TRUE") .tbool = .ok (.vbool true)
    ∧ convert_primitive .vnone .tbool = .ok (.vbool (pyTruthy .vnone)) :=
  ⟨c8_amended.2.1 "TRUE" (Or.inl (by decide)),
   c8_amended.2.2.2.2 .vnone (by intro b h; cases h) (by intro s h; cases h)⟩

/-- C6 counterexample: a sequence value with two primitive-leaf chains: no
chain is compatible, and pruning returns the empty set rather than
keeping the original non-empty set. -/
theorem c6_counterexample :
    try_prune_type_chains (.vlist (.cons (.vint 1) .nil))
        [[({ type_ := .tint } : TypeInfo)], [({ type_ := .tstr } : TypeInfo)]]
        = ([] : List Chain)
    ∧ ([[({ type_ := .tint } : TypeInfo)], [({ type_ := .tstr } : TypeInfo)]] : List Chain)
        ≠ ([] : List Chain) :=
  ⟨rfl, by decide⟩

/-- C6 amended: when no chain is compatible with a sequence value, pruning
returns the empty set — the node does not keep the original set — and a
node left with no chains does not fail per-chain in the Factory System:
it stores its materialized raw value as-is. -/
theorem c6_amended :
    (∀ (items : VList) (chains : List Chain), chains ≠ [] →
      (∀ c ∈ chains, isListContainerTy (chainLeaf c).type_ = false) →
      try_prune_type_chains (.vlist items) chains = []
        ∧ try_prune_type_chains (.vlist items) chains ≠ chains)
    ∧ (∀ (env : FEnv) (v : Val) (path : List Seg) (al : List String),
        FactorySystem.apply env (.mk (.prim v) "" none [] path al "")
          = .ok (.mk (.prim v) "" (some v) [] path al "")) := by
  constructor
  · intro items chains hne hall
    have hfil : chains.filter (fun c => isListContainerTy (chainLeaf c).type_) = [] := by
      rw [List.filter_eq_nil_iff]
      intro c hc
      simp [hall c hc]
    have heq : try_prune_type_chains (.vlist items) chains = [] := by
      simpa [try_prune_type_chains] using hfil
    exact ⟨heq, by rw [heq]; exact fun h => hne h.symm⟩
  · intro env v path al
    rfl

/-- C6 witness: the amended statement applied at the counterexample input
and at a concrete chainless node. -/
theorem c6_witness :
    try_prune_type_chains (.vlist (.cons (.vint 1) .nil))
        [[({ type_ := .tint } : TypeInfo)], [({ type_ := .tstr } : TypeInfo)]] = []
    ∧ FactorySystem.apply envNone (.mk (.prim (.vint 3)) "" none [] [.key "a"] [] "")
        = .ok (.mk (.prim (.vint 3)) "" (some (.vint 3)) [] [.key "a"] [] "") :=
  ⟨(c6_amended.1 (.cons (.vint 1) .nil)
      [[({ type_ := .tint } : TypeInfo)], [({ type_ := .tstr } : TypeInfo)]]
      (by decide) (by decide)).1,
   c6_amended.2 envNone (.vint 3) [.key "a"] []⟩

/-- C3 counterexample: a node whose value was already set (the source's
own tests construct such nodes) with two type chains: apply returns
without raising — the early `is_factoried` return — and afterwards the
node still has two type chains, violating the claimed bound. -/
theorem c3_counterexample :
    FactorySystem.apply envNone preFactoriedNode = .ok preFactoriedNode
    ∧ preFactoriedNode.value.isSome = true
    ∧ preFactoriedNode.type_chains.length = 2 :=
  ⟨rfl, rfl, rfl⟩

/-- C3 amended: for every node that was not already factoried, whenever
FactorySystem.apply returns without raising the returned node has a
factoried value and at most one type chain (the successful chain, the
Any fallback, or none). -/
theorem c3_amended (env : FEnv) (node node' : ResolutionNode)
    (hunf : node.value = none)
    (h : FactorySystem.apply env node = .ok node') :
    node'.value.isSome = true ∧ node'.type_chains.length ≤ 1 := by
  obtain ⟨c, r, v, tc, p, al, rs⟩ := node
  have hv : v = none := hunf
  subst hv
  rw [FactorySystem.apply] at h
  simp only [Option.isSome_none, Bool.false_eq_true, if_false] at h
  split at h
  · cases h
  · split at h
    · cases h
    · split at h
      · rename_i htc
        cases h
        exact ⟨rfl, by simp [ResolutionNode.type_chains, htc]⟩
      · split at h
        · cases h
          exact ⟨rfl, by simp [ResolutionNode.type_chains]⟩
        · split at h
          · cases h
          · cases h
            refine ⟨rfl, ?_⟩
            simp only [ResolutionNode.type_chains]
            split <;> simp

/-- C3 witness: the amended statement applied to a concrete unfactoried
string node and the concrete result of its factory application. -/
theorem c3_witness :
    (ResolutionNode.mk (.prim (.vstr "hello")) "" (some (.vstr "hello"))
        [[({ type_ := .tstr } : TypeInfo)]] [.key "a"] [] "").value.isSome = true
    ∧ (ResolutionNode.mk (.prim (.vstr "hello")) "" (some (.vstr "hello"))
        [[({ type_ := .tstr } : TypeInfo)]] [.key "a"] [] "").type_chains.length ≤ 1 :=
  c3_amended envNone plainStrNode _ rfl rfl

/-- C5 (confirmed): a reference node carrying no structural overrides
(non-mapping content, or a mapping with only the reserved keys), resolved
against a valid target — the target matches the reference and is not
itself a reference — while the reference node is still unfactoried,
returns the target itself with the reference node's name added to its
aliases, every other field (content, reference, value, type chains, path,
name, resolved) unchanged. -/
theorem c5_theorem (self target : ResolutionNode)
    (h1 : self.is_reference = true)
    (h2 : self.is_factoried = false)
    (h3 : target.matches_name self.reference = true)
    (h4 : target.is_reference = false)
    (h5 : ∀ d, self.content = .dict d → d.nonReservedMeasure ≤ 0) :
    ResolutionNode.resolve_reference self target = .ok (target.addAlias self.name)
    ∧ (target.addAlias self.name).content = target.content
    ∧ (target.addAlias self.name).reference = target.reference
    ∧ (target.addAlias self.name).value = target.value
    ∧ (target.addAlias self.name).type_chains = target.type_chains
    ∧ (target.addAlias self.name).path = target.path
    ∧ (target.addAlias self.name).name = target.name
    ∧ (target.addAlias self.name).resolved = target.resolved
    ∧ (∀ a, a ∈ (target.addAlias self.name).aliases ↔ a ∈ target.aliases ∨ a = self.name) := by
  refine ⟨?_, ?_⟩
  · rw [ResolutionNode.resolve_reference]
    rw [h1, h2, h3, h4]
    simp only [Bool.not_true, Bool.not_false, Bool.false_eq_true, if_false, if_true]
    cases hc : self.content with
    | dict d => simp [h5 d hc]
    | prim v => rfl
    | arr l => rfl
  · obtain ⟨c, r, v, tc, p, al, rs⟩ := target
    refine ⟨rfl, rfl, rfl, rfl, rfl, rfl, rfl, ?_⟩
    intro a
    by_cases hmem : al.contains self.name = true
    · have hm : self.name ∈ al := by simpa using hmem
      simp only [ResolutionNode.addAlias, ResolutionNode.aliases, hmem, if_true]
      constructor
      · exact fun ha => Or.inl ha
      · rintro (ha | ha)
        · exact ha
        · rw [ha]; exact hm
    · simp only [ResolutionNode.addAlias, ResolutionNode.aliases, hmem,
        Bool.false_eq_true, if_false]
      simp [List.mem_append]

/-- C5 witness: the frame property applied at a concrete bare reference
node and a concrete factoried target. -/
theorem c5_witness :
    ResolutionNode.resolve_reference refNodeC5 targetNodeC5
      = .ok (targetNodeC5.addAlias refNodeC5.name) :=
  (c5_theorem refNodeC5 targetNodeC5 rfl rfl rfl rfl
    (by intro d hd; cases hd)).1

/-- Every error of the gap-filling loop is a KeyError. -/
theorem cwuFill_err (ud : NDict) : ∀ (j count : Nat) (e : Err),
    cwuFill ud j count = .error e → e = .keyError := by
  intro j count
  induction count generalizing j with
  | zero => intro e h; cases h
  | succ n ih =>
    intro e h
    rw [cwuFill] at h
    repeat' split at h
    all_goals try cases h
    · rfl
    · rename_i heq
      exact ih _ _ heq

mutual
/-- Every error `copy_with_update` raises is a ConfigReferenceError (a
reference node used as an update) or a raw KeyError (sequence-override
gap filling), by mutual induction with its two content loops. -/
theorem copy_with_update_err : ∀ (s u : ResolutionNode) (e : Err),
    s.copy_with_update u = .error e → e = .configReferenceError ∨ e = .keyError
  | .mk sc sr sv stc sp sal srs, u, e => by
    intro h
    rw [ResolutionNode.copy_with_update] at h
    repeat' split at h
    all_goals try cases h
    all_goals first
      | exact Or.inl rfl
      | exact Or.inr rfl
      | (rename_i heq
         first
          | exact cwuDict_err _ _ _ _ heq
          | exact cwuList_err _ _ _ _ _ heq
          | exact Or.inr (cwuFill_err _ _ _ _ heq))

theorem cwuDict_err : ∀ (sd ud : NDict) (u : ResolutionNode) (e : Err),
    cwuDict sd ud u = .error e → e = .configReferenceError ∨ e = .keyError
  | .nil, _, _, _ => by intro h; simp [cwuDict] at h
  | .cons k v rest, ud, u, e => by
    intro h
    rw [cwuDict] at h
    repeat' split at h
    all_goals try cases h
    all_goals first
      | exact cwuDict_err rest ud u _ (by assumption)
      | (rename_i heq
         first
          | exact copy_with_update_err v _ _ heq
          | exact cwuDict_err rest ud u _ heq)

theorem cwuList_err : ∀ (sl : NList) (ud : NDict) (u : ResolutionNode) (i : Nat) (e : Err),
    cwuList sl ud u i = .error e → e = .configReferenceError ∨ e = .keyError
  | .nil, _, _, _, _ => by intro h; simp [cwuList] at h
  | .cons v rest, ud, u, i, e => by
    intro h
    rw [cwuList] at h
    repeat' split at h
    all_goals try cases h
    all_goals first
      | exact cwuList_err rest ud u (i + 1) _ (by assumption)
      | (rename_i heq
         first
          | exact copy_with_update_err v _ _ heq
          | exact cwuList_err rest ud u (i + 1) _ heq)
end

/-- C10 counterexample: a root mapping carrying a valid `_reference_` and
an additional key with no type information fails with ConfigParseError —
the child is built (and fails) before the root's own constructor check,
so the failure is not ConfigReferenceError as claimed. -/
theorem c10_counterexample :
    ResolutionNode.build [] []
        (.vdict (.cons (.key "_reference_") (.vstr "::a")
          (.cons (.key "x") (.vint 5) .nil))) [] []
        = .error .configParseError
    ∧ Err.configParseError ≠ Err.configReferenceError :=
  ⟨rfl, by decide⟩

/-- C10 amended: the root node can never be a reference node.
A bare reference-string root always fails with ConfigReferenceError (the
root's name is the empty string, a prefix of every string).  A mapping
root with a valid `_reference_` value always fails: with
ConfigReferenceError when every non-reserved entry builds successfully,
and with the failing child's error (e.g. ConfigParseError) otherwise.
The type-info map is assumed to have no entry for the empty root path, as
the resolution state's map never does (its keys all start with a scope
segment). -/
theorem c10_amended (type_infos : List (List Seg × TypeInfo)) (reg : Registry)
    (hroot : ∀ e ∈ type_infos, e.1 ≠ []) :
    (∀ s : String, is_reference_format s = true →
      ResolutionNode.build type_infos reg (.vstr s) [] []
        = .error .configReferenceError)
    ∧ (∀ (d : VDict) (r : String),
        d.lookup (.key "_reference_") = some (.vstr r) →
        is_reference_format r = true →
        (∃ ch, buildDictChildren type_infos reg d [] [] = .ok ch) →
        ResolutionNode.build type_infos reg (.vdict d) [] []
          = .error .configReferenceError)
    ∧ (∀ (d : VDict) (r : String),
        d.lookup (.key "_reference_") = some (.vstr r) →
        is_reference_format r = true →
        ∃ e, ResolutionNode.build type_infos reg (.vdict d) [] [] = .error e) := by
  have hfind : assocFindTI type_infos [] = none := by
    rw [assocFindTI]
    rw [List.find?_eq_none.mpr]
    intro e he
    simpa using hroot e he
  have hpre : ∀ r : String, pyStartsWith r (path_to_reference ([] : List Seg)) = true := by
    intro r
    simp [path_to_reference, pyStartsWith, List.isPrefixOf]
  refine ⟨?_, ?_, ?_⟩
  · intro s hs
    rw [ResolutionNode.build]
    have hdet : detectReference (.vstr s) = .ok s := by
      simp [detectReference, hs]
    rw [hdet, hfind]
    have hs' : s ≠ "" := by
      intro h
      rw [h] at hs
      exact absurd hs (by decide)
    simp only [ne_eq, not_true_eq_false, if_false, reduceIte]
    simp [ResolutionNode.make, hs, hs', hpre s]
  · intro d r hlook hr hch
    obtain ⟨ch, hch⟩ := hch
    rw [ResolutionNode.build]
    have hdet : detectReference (.vdict d) = .ok r := by
      simp [detectReference, hlook, hr]
    rw [hdet, hfind]
    simp only [ne_eq, not_true_eq_false, if_false, reduceIte]
    have hr' : r ≠ "" := by
      intro h
      rw [h] at hr
      exact absurd hr (by decide)
    have hprune : ¬(r = "" ∧ (([] : List Chain)).length > 1) := by
      intro h
      exact hr' h.1
    rw [if_neg hprune, hch]
    simp [ResolutionNode.make, hr, hr', hpre r]
  · intro d r hlook hr
    cases hch : buildDictChildren type_infos reg d [] [] with
    | ok ch =>
      refine ⟨.configReferenceError, ?_⟩
      rw [ResolutionNode.build]
      have hdet : detectReference (.vdict d) = .ok r := by
        simp [detectReference, hlook, hr]
      rw [hdet, hfind]
      simp only [ne_eq, not_true_eq_false, if_false, reduceIte]
      have hr' : r ≠ "" := by
        intro h
        rw [h] at hr
        exact absurd hr (by decide)
      have hprune : ¬(r = "" ∧ (([] : List Chain)).length > 1) := by
        intro h
        exact hr' h.1
      rw [if_neg hprune, hch]
      simp [ResolutionNode.make, hr, hr', hpre r]
    | error e =>
      refine ⟨e, ?_⟩
      rw [ResolutionNode.build]
      have hdet : detectReference (.vdict d) = .ok r := by
        simp [detectReference, hlook, hr]
      rw [hdet, hfind]
      simp only [ne_eq, not_true_eq_false, if_false, reduceIte]
      have hr' : r ≠ "" := by
        intro h
        rw [h] at hr
        exact absurd hr (by decide)
      have hprune : ¬(r = "" ∧ (([] : List Chain)).length > 1) := by
        intro h
        exact hr' h.1
      rw [if_neg hprune, hch]

/-- C10 witness: the amended statement applied at a bare reference-string
root and at a reference mapping whose non-reserved children build. -/
theorem c10_witness :
    ResolutionNode.build [] [] (.vstr "::x") [] [] = .error .configReferenceError
    ∧ ResolutionNode.build [] []
        (.vdict (.cons (.key "_reference_") (.vstr "::a") .nil)) [] []
        = .error .configReferenceError :=
  ⟨(c10_amended [] [] (by intro e he; cases he)).1 "::x" (by decide),
   (c10_amended [] [] (by intro e he; cases he)).2.1
     (.cons (.key "_reference_") (.vstr "::a") .nil) "::a" rfl (by decide)
     ⟨.nil, rfl⟩⟩

-- ======================================================================
-- Kahn invariant development (shared lemmas for C1 and C2).
-- ======================================================================

theorem processDeps_fst (ds : List String) (hnd : ds.Nodup) :
    ∀ (indeg : String → Int) (queue : List String),
    (processDeps ds indeg queue).1
      = fun m => if m ∈ ds then indeg m - 1 else indeg m := by
  induction ds with
  | nil => intro indeg queue; funext m; simp [processDeps]
  | cons a rest ih =>
    intro indeg queue
    rw [List.nodup_cons] at hnd
    rw [processDeps, ih hnd.2]
    funext m
    by_cases hma : m = a
    · subst hma
      simp [hnd.1]
    · by_cases hmr : m ∈ rest <;> simp [hma, hmr]

theorem processDeps_snd (ds : List String) (hnd : ds.Nodup) :
    ∀ (indeg : String → Int) (queue : List String),
    (processDeps ds indeg queue).2
      = queue ++ ds.filter (fun a => indeg a - 1 = 0) := by
  induction ds with
  | nil => intro indeg queue; simp [processDeps]
  | cons a rest ih =>
    intro indeg queue
    rw [List.nodup_cons] at hnd
    rw [processDeps, ih hnd.2]
    have hco : rest.filter (fun m => (if m = a then indeg a - 1 else indeg m) - 1 = 0)
        = rest.filter (fun m => indeg m - 1 = 0) := by
      refine List.filter_congr ?_
      intro x hx
      have hxa : x ≠ a := fun he => hnd.1 (he ▸ hx)
      simp [hxa]
    rw [hco]
    by_cases hz : indeg a - 1 = 0 <;> simp [List.filter_cons, hz]

/-- Removing one fresh member of a duplicate-free list from the allowed
set shrinks the not-yet-emitted filter by exactly one. -/
theorem filter_length_drop_one (p : List String) (n : String) :
    ∀ (l : List String), l.Nodup → n ∈ l → n ∉ p →
    (l.filter (fun d => d ∉ p ++ [n])).length + 1
      = (l.filter (fun d => d ∉ p)).length := by
  intro l
  induction l with
  | nil => intro _ hn; cases hn
  | cons a rest ih =>
    intro hl hn hnp
    rw [List.nodup_cons] at hl
    rcases List.mem_cons.1 hn with he | hmem
    · subst he
      have htail : rest.filter (fun d => d ∉ p ++ [n]) = rest.filter (fun d => d ∉ p) := by
        refine List.filter_congr ?_
        intro x hx
        have hxa : x ≠ n := fun he2 => hl.1 (he2 ▸ hx)
        simp [List.mem_append, hxa]
      simp only [List.filter_cons]
      have c1 : (decide (n ∉ p ++ [n])) = false := by simp
      have c2 : (decide (n ∉ p)) = true := by simp [hnp]
      rw [c1, c2, htail]
      simp
    · have hane : a ≠ n := fun he2 => hl.1 (he2 ▸ hmem)
      have ihh := ih hl.2 hmem hnp
      simp only [List.filter_cons]
      have c1 : (decide (a ∉ p ++ [n])) = (decide (a ∉ p)) := by
        simp [List.mem_append, hane]
      rw [c1]
      by_cases hap : a ∈ p
      · rw [if_neg (by simp [hap]), if_neg (by simp [hap])]
        exact ihh
      · rw [if_pos (by simp [hap]), if_pos (by simp [hap])]
        simp only [List.length_cons]
        omega

theorem topoSorted_append (deps : String → List String) (P : List String) (n : String)
    (h : TopoSorted deps P) (hn : ∀ d ∈ deps n, d ∈ P) :
    TopoSorted deps (P ++ [n]) := by
  intro i d hd
  have hlen : (P ++ [n]).length = P.length + 1 := by simp
  by_cases hi : i.val < P.length
  · have hget : (P ++ [n]).get i = P.get ⟨i.val, hi⟩ := by
      simp [List.get_eq_getElem, List.getElem_append_left hi]
    rw [hget] at hd
    obtain ⟨j, hj, hgj⟩ := h ⟨i.val, hi⟩ d hd
    have hj2 := j.isLt
    refine ⟨⟨j.val, by simp; omega⟩, hj, ?_⟩
    simpa [List.get_eq_getElem, List.getElem_append_left j.isLt] using hgj
  · have hi3 := i.isLt
    have hi2 : i.val = P.length := by omega
    have hget : (P ++ [n]).get i = n := by
      simp [List.get_eq_getElem, List.getElem_append_right (le_of_eq hi2.symm), hi2]
    rw [hget] at hd
    have hdP : d ∈ P := hn d hd
    obtain ⟨j, hgj⟩ := List.mem_iff_get.1 hdP
    have hj2 := j.isLt
    refine ⟨⟨j.val, by simp; omega⟩, ?_, ?_⟩
    · show j.val < i.val
      omega
    · simpa [List.get_eq_getElem, List.getElem_append_left j.isLt] using hgj

theorem mem_kahnDependents (names : List String) (deps : String → List String)
    (n a : String) :
    a ∈ kahnDependents names deps n ↔ a ∈ names ∧ n ∈ deps a := by
  simp [kahnDependents]

/-- One iteration of the while-loop preserves the Kahn invariant. -/
theorem kInv_step (names : List String) (deps : String → List String)
    (hnames : names.Nodup) (hdnodup : ∀ a, (deps a).Nodup)
    (indeg : String → Int) (rest processed : List String) (n : String)
    (hinv : KInv names deps indeg (n :: rest) processed) :
    KInv names deps
      (processDeps (kahnDependents names deps n) indeg rest).1
      (processDeps (kahnDependents names deps n) indeg rest).2
      (processed ++ [n]) := by
  obtain ⟨hnd, hsub, hready, htopo, hclosed, hcount⟩ := hinv
  have hnN : n ∈ names := hsub n (by simp)
  have hnodupdn : (kahnDependents names deps n).Nodup := hnames.filter _
  have hdisj : ∀ x ∈ processed, x ∉ n :: rest := by
    intro x hx
    exact (List.nodup_append.1 hnd).2.2 hx
  have hnp : n ∉ processed := fun h => hdisj n h (by simp)
  have hfresh : ∀ a ∈ kahnDependents names deps n, a ∉ processed ∧ a ∉ n :: rest := by
    intro a ha
    obtain ⟨haN, hna⟩ := (mem_kahnDependents names deps n a).1 ha
    refine ⟨?_, ?_⟩
    · intro hap
      exact (hdisj n (hclosed a hap n hna)) (by simp)
    · intro haq
      exact hnp (hready a haq n hna)
  have h1 : (processDeps (kahnDependents names deps n) indeg rest).1
      = fun m => if m ∈ kahnDependents names deps n then indeg m - 1 else indeg m :=
    processDeps_fst _ hnodupdn indeg rest
  have h2 : (processDeps (kahnDependents names deps n) indeg rest).2
      = rest ++ (kahnDependents names deps n).filter (fun a => indeg a - 1 = 0) :=
    processDeps_snd _ hnodupdn indeg rest
  have hcnt : ∀ a ∈ kahnDependents names deps n,
      indeg a = (((deps a).filter (fun d => d ∉ processed)).length : Int)
      ∧ (deps a).filter (fun d => d ∉ processed) ≠ [] := by
    intro a ha
    obtain ⟨hap, haq⟩ := hfresh a ha
    exact hcount a ((mem_kahnDependents names deps n a).1 ha).1 hap haq
  have hnewlysub : ∀ a ∈ (kahnDependents names deps n).filter (fun a => indeg a - 1 = 0),
      a ∈ kahnDependents names deps n ∧ indeg a - 1 = 0 := by
    intro a ha
    have := List.mem_filter.1 ha
    exact ⟨this.1, by simpa using this.2⟩
  have hndBase : ((processed ++ [n]) ++ rest).Nodup := by
    have : processed ++ n :: rest = (processed ++ [n]) ++ rest := by simp
    exact this ▸ hnd
  refine ⟨?_, ?_, ?_, ?_, ?_, ?_⟩
  · -- Nodup of processed' ++ queue'
    rw [h2, ← List.append_assoc]
    rw [List.nodup_append]
    refine ⟨hndBase, hnodupdn.filter _, ?_⟩
    intro x hx hxnew
    obtain ⟨hxdn, _⟩ := hnewlysub x hxnew
    obtain ⟨hxp, hxq⟩ := hfresh x hxdn
    rcases List.mem_append.1 hx with hx1 | hx2
    · rcases List.mem_append.1 hx1 with hx3 | hx4
      · exact hxp hx3
      · exact hxq (by rw [List.mem_singleton.1 hx4]; exact List.mem_cons_self n rest)
    · exact hxq (List.mem_cons_of_mem n hx2)
  · -- membership in names
    rw [h2]
    intro x hx
    rcases List.mem_append.1 hx with hx1 | hx2
    · rcases List.mem_append.1 hx1 with hx3 | hx4
      · exact hsub x (List.mem_append.2 (Or.inl hx3))
      · exact (List.mem_singleton.1 hx4) ▸ hnN
    · rcases List.mem_append.1 hx2 with hx3 | hx4
      · exact hsub x (List.mem_append.2 (Or.inr (List.mem_cons_of_mem n hx3)))
      · exact ((mem_kahnDependents names deps n x).1 (hnewlysub x hx4).1).1
  · -- queue readiness
    rw [h2]
    intro a ha d hd
    rcases List.mem_append.1 ha with ha1 | ha2
    · exact List.mem_append.2 (Or.inl (hready a (List.mem_cons_of_mem n ha1) d hd))
    · obtain ⟨hadn, haz⟩ := hnewlysub a ha2
      obtain ⟨haN, hna⟩ := (mem_kahnDependents names deps n a).1 hadn
      obtain ⟨hieq, hfne⟩ := hcnt a hadn
      have hlen1 : ((deps a).filter (fun d => d ∉ processed)).length = 1 := by
        have : indeg a = 1 := by omega
        rw [this] at hieq
        exact_mod_cast hieq.symm
      obtain ⟨b, hb⟩ := List.length_eq_one.1 hlen1
      have hnb : n ∈ (deps a).filter (fun d => d ∉ processed) := by
        rw [List.mem_filter]
        exact ⟨hna, by simpa using hnp⟩
      rw [hb] at hnb
      have hbn : b = n := (List.mem_singleton.1 hnb).symm
      by_cases hdp : d ∈ processed
      · exact List.mem_append.2 (Or.inl hdp)
      · have : d ∈ (deps a).filter (fun d => d ∉ processed) := by
          rw [List.mem_filter]
          exact ⟨hd, by simpa using hdp⟩
        rw [hb, hbn] at this
        exact List.mem_append.2 (Or.inr this)
  · -- topological sortedness
    refine topoSorted_append deps processed n htopo ?_
    exact hready n (by simp)
  · -- dependency closure
    intro a ha d hd
    rcases List.mem_append.1 ha with ha1 | ha2
    · exact List.mem_append.2 (Or.inl (hclosed a ha1 d hd))
    · have han : a = n := List.mem_singleton.1 ha2
      exact List.mem_append.2 (Or.inl (hready a (han ▸ List.mem_cons_self n rest) d hd))
  · -- in-degree bookkeeping for untouched nodes
    rw [h2]
    simp only [h1]
    intro a haN hap haq
    have hanp : a ∉ processed := fun h => hap (List.mem_append.2 (Or.inl h))
    have hane : a ≠ n := fun h => hap (List.mem_append.2 (Or.inr (by simp [h])))
    have har : a ∉ rest := fun h => haq (List.mem_append.2 (Or.inl h))
    have hanw : a ∉ (kahnDependents names deps n).filter (fun a => indeg a - 1 = 0) :=
      fun h => haq (List.mem_append.2 (Or.inr h))
    by_cases hadn : a ∈ kahnDependents names deps n
    · have hna : n ∈ deps a := ((mem_kahnDependents names deps n a).1 hadn).2
      obtain ⟨hieq, hfne⟩ := hcnt a hadn
      have hdrop := filter_length_drop_one processed n (deps a) (hdnodup a) hna hnp
      have hiz : ¬ (indeg a - 1 = 0) := by
        intro hz
        exact hanw (List.mem_filter.2 ⟨hadn, by simpa using hz⟩)
      have hlne : ((deps a).filter (fun d => d ∉ processed)).length ≠ 0 := by
        intro hz
        exact hfne (List.length_eq_zero.1 hz)
      have hgoal1 : (if a ∈ kahnDependents names deps n then indeg a - 1 else indeg a)
          = (((deps a).filter (fun d => d ∉ processed ++ [n])).length : Int) := by
        rw [if_pos hadn, hieq]
        omega
      refine ⟨hgoal1, ?_⟩
      intro hz
      have hz0 : ((deps a).filter (fun d => d ∉ processed ++ [n])).length = 0 := by
        rw [hz]; rfl
      omega
    · have hna : n ∉ deps a := fun h => hadn ((mem_kahnDependents names deps n a).2 ⟨haN, h⟩)
      have hfeq : (deps a).filter (fun d => d ∉ processed ++ [n])
          = (deps a).filter (fun d => d ∉ processed) := by
        refine List.filter_congr ?_
        intro d hd
        have hdn : d ≠ n := fun he => hna (he ▸ hd)
        simp [List.mem_append, hdn]
      obtain ⟨hieq, hfne⟩ := hcount a haN hanp
        (fun h => (List.mem_cons.1 h).elim hane har)
      rw [if_neg hadn, hfeq]
      exact ⟨hieq, hfne⟩

/-- Running the loop from any invariant state with enough fuel yields a
topologically sorted duplicate-free emission of collected names; and when
the emission is incomplete, every unemitted name retains an unemitted
dependency. -/
theorem kahnLoop_spec (names : List String) (deps : String → List String)
    (hnames : names.Nodup) (hdnodup : ∀ a, (deps a).Nodup) :
    ∀ (fuel : Nat) (indeg : String → Int) (queue processed : List String),
    KInv names deps indeg queue processed →
    names.length = fuel + processed.length →
    TopoSorted deps (kahnLoop (kahnDependents names deps) fuel indeg queue processed).1
    ∧ (kahnLoop (kahnDependents names deps) fuel indeg queue processed).1.Nodup
    ∧ (∀ x ∈ (kahnLoop (kahnDependents names deps) fuel indeg queue processed).1, x ∈ names)
    ∧ (∀ a ∈ names, a ∉ (kahnLoop (kahnDependents names deps) fuel indeg queue processed).1 →
        ∃ d ∈ deps a, d ∉ (kahnLoop (kahnDependents names deps) fuel indeg queue processed).1) := by
  intro fuel
  induction fuel with
  | zero =>
    intro indeg queue processed hinv hfuel
    obtain ⟨hnd, hsub, hready, htopo, hclosed, hcount⟩ := hinv
    simp only [kahnLoop]
    refine ⟨htopo, hnd.of_append_left, ?_, ?_⟩
    · intro x hx
      exact hsub x (List.mem_append.2 (Or.inl hx))
    · intro a haN hap
      by_cases haq : a ∈ queue
      · exfalso
        have hsp : processed.Subperm names :=
          List.subperm_of_subset hnd.of_append_left
            (fun x hx => hsub x (List.mem_append.2 (Or.inl hx)))
        have hlen : processed.length ≤ names.length := hsp.length_le
        have hlen2 : names.length = processed.length := by omega
        have hq : (processed ++ queue).Subperm names :=
          List.subperm_of_subset hnd (fun x => hsub x)
        have := hq.length_le
        simp only [List.length_append] at this
        have hq0 : queue.length = 0 := by omega
        rw [List.length_eq_zero.1 hq0] at haq
        cases haq
      · obtain ⟨_, hfne⟩ := hcount a haN hap haq
        obtain ⟨d, hd⟩ := List.exists_mem_of_ne_nil _ hfne
        have := List.mem_filter.1 hd
        exact ⟨d, this.1, by simpa using this.2⟩
  | succ fuel ih =>
    intro indeg queue processed hinv hfuel
    match queue with
    | [] =>
      obtain ⟨hnd, hsub, hready, htopo, hclosed, hcount⟩ := hinv
      simp only [kahnLoop]
      refine ⟨htopo, hnd.of_append_left, ?_, ?_⟩
      · intro x hx
        exact hsub x (List.mem_append.2 (Or.inl hx))
      · intro a haN hap
        obtain ⟨_, hfne⟩ := hcount a haN hap (by simp)
        obtain ⟨d, hd⟩ := List.exists_mem_of_ne_nil _ hfne
        have := List.mem_filter.1 hd
        exact ⟨d, this.1, by simpa using this.2⟩
    | n :: rest =>
      have hstep := kInv_step names deps hnames hdnodup indeg rest processed n hinv
      have hfuel2 : names.length = fuel + (processed ++ [n]).length := by
        simp only [List.length_append, List.length_singleton]
        omega
      have := ih (processDeps (kahnDependents names deps n) indeg rest).1
        (processDeps (kahnDependents names deps n) indeg rest).2
        (processed ++ [n]) hstep hfuel2
      simpa only [kahnLoop] using this

/-- The initial state of `_compute_topological_order` satisfies the Kahn
invariant. -/
theorem kahnRun_init (names : List String) (deps : String → List String)
    (hnames : names.Nodup) :
    KInv names deps (fun n => ((deps n).length : Int))
      (names.filter (fun n => (deps n).length = 0)) [] := by
  refine ⟨?_, ?_, ?_, ?_, ?_, ?_⟩
  · simpa using hnames.filter _
  · intro x hx
    simp only [List.nil_append] at hx
    exact (List.mem_filter.1 hx).1
  · intro a ha d hd
    have := List.mem_filter.1 ha
    have hz : (deps a).length = 0 := by simpa using this.2
    rw [List.length_eq_zero.1 hz] at hd
    cases hd
  · intro i
    exact absurd i.isLt (by simp)
  · intro a ha
    cases ha
  · intro a haN _ haq
    have hne : ¬ ((deps a).length = 0) := by
      intro hz
      exact haq (List.mem_filter.2 ⟨haN, by simpa using hz⟩)
    have hfe : (deps a).filter (fun d => d ∉ ([] : List String)) = deps a := by
      refine List.filter_eq_self.2 ?_
      intro d _
      simp
    rw [hfe]
    refine ⟨rfl, ?_⟩
    intro hz
    exact hne (by rw [hz]; rfl)

/-- Kahn summary: the emitted order of `_compute_topological_order` is a
topologically sorted duplicate-free selection of the collected names, and
any unemitted name keeps an unemitted dependency. -/
theorem kahnRun_spec (names : List String) (deps : String → List String)
    (hnames : names.Nodup) (hdnodup : ∀ a, (deps a).Nodup) :
    TopoSorted deps (kahnRun names deps).1
    ∧ (kahnRun names deps).1.Nodup
    ∧ (∀ x ∈ (kahnRun names deps).1, x ∈ names)
    ∧ (∀ a ∈ names, a ∉ (kahnRun names deps).1 →
        ∃ d ∈ deps a, d ∉ (kahnRun names deps).1) := by
  have := kahnLoop_spec names deps hnames hdnodup names.length
    (fun n => ((deps n).length : Int))
    (names.filter (fun n => (deps n).length = 0)) []
    (kahnRun_init names deps hnames) (by simp)
  simpa only [kahnRun] using this

/-- In a topologically sorted duplicate-free order, a dependency occurs
strictly earlier than its dependent. -/
theorem topo_index_lt (deps : String → List String) (order : List String)
    (hnd : order.Nodup) (ht : TopoSorted deps order) :
    ∀ x ∈ order, ∀ y ∈ deps x, y ∈ order ∧ order.indexOf y < order.indexOf x := by
  intro x hx y hy
  obtain ⟨i, hi⟩ := List.mem_iff_get.1 hx
  have hy2 : y ∈ deps (order.get i) := by rw [hi]; exact hy
  obtain ⟨j, hji, hgj⟩ := ht i y hy2
  have hymem : y ∈ order := by
    rw [← hgj, List.get_eq_getElem]
    exact List.getElem_mem j.isLt
  have hjy : order.indexOf y = j.val := by
    rw [← hgj, List.get_eq_getElem]
    exact List.indexOf_getElem hnd j.val j.isLt
  have hix : order.indexOf x = i.val := by
    rw [← hi, List.get_eq_getElem]
    exact List.indexOf_getElem hnd i.val i.isLt
  exact ⟨hymem, by omega⟩

/-- Along a nonempty dependency chain inside a topologically sorted
duplicate-free order, the index of the last node is strictly below the
index of the first. -/
theorem chain_indexOf_lt (deps : String → List String) (order : List String)
    (hnd : order.Nodup) (ht : TopoSorted deps order) :
    ∀ (l : List String) (a b : String),
    List.Chain' (fun u v => v ∈ deps u) (a :: l) → (a :: l).getLast? = some b →
    (∀ z ∈ a :: l, z ∈ order) → l ≠ [] →
    order.indexOf b < order.indexOf a := by
  intro l
  induction l with
  | nil => intro a b _ _ _ hne; exact absurd rfl hne
  | cons x rest ih =>
    intro a b hch hlast hmem _
    have hax : x ∈ deps a := (List.chain'_cons.1 hch).1
    have haord : a ∈ order := hmem a (by simp)
    obtain ⟨hxord, hlt⟩ := topo_index_lt deps order hnd ht a haord x hax
    rcases rest with _ | ⟨y, rest2⟩
    · have hbx : b = x := by
        simp only [List.getLast?_cons_cons, List.getLast?_singleton] at hlast
        exact (Option.some_inj.1 hlast).symm
      rw [hbx]
      exact hlt
    · have hlast2 : (x :: y :: rest2).getLast? = some b := by
        simpa only [List.getLast?_cons_cons] using hlast
      have hch2 : List.Chain' (fun u v => v ∈ deps u) (x :: y :: rest2) :=
        (List.chain'_cons.1 hch).2
      have hmem2 : ∀ z ∈ x :: y :: rest2, z ∈ order :=
        fun z hz => hmem z (List.mem_cons_of_mem a hz)
      have := ih x b hch2 hlast2 hmem2 (by simp)
      omega

/-- No dependency cycle can live inside a topologically sorted
duplicate-free order. -/
theorem cycle_not_topo (deps : String → List String) (order : List String)
    (hnd : order.Nodup) (ht : TopoSorted deps order) (c : List String)
    (hc : IsCycle deps c) (hmem : ∀ z ∈ c, z ∈ order) : False := by
  obtain ⟨hlen, hhl, hch⟩ := hc
  rcases c with _ | ⟨a, l⟩
  · simp at hlen
  · have hlne : l ≠ [] := by
      intro h
      rw [h] at hlen
      simp at hlen
    have hhead : (a :: l).head? = some a := rfl
    have hlast : (a :: l).getLast? = some a := by rw [← hhl]; rfl
    have := chain_indexOf_lt deps order hnd ht l a a hch hlast hmem hlne
    omega

/-- A duplicate-free selection of the names with full length exhausts the
names. -/
theorem sel_complete (names order : List String) (hnd : order.Nodup)
    (hsubn : ∀ x ∈ order, x ∈ names) (hlen : order.length = names.length) :
    ∀ x ∈ names, x ∈ order := by
  intro x hxn
  by_contra hxo
  have hsub2 : order ⊆ names.erase x := by
    intro y hy
    have hyn : y ∈ names := hsubn y hy
    have hyx : y ≠ x := fun he => hxo (he ▸ hy)
    exact (List.mem_erase_of_ne hyx).2 hyn
  have := (List.subperm_of_subset hnd hsub2).length_le
  rw [List.length_erase_of_mem hxn] at this
  have hpos : 0 < names.length := List.length_pos.2 (List.ne_nil_of_mem hxn)
  omega

/-- A strict filter-measure decrease: marking a fresh member visited
shrinks the unvisited filter. -/
theorem filter_visited_lt (S visited : List String) (n : String)
    (hn : n ∈ S) (hnv : n ∉ visited) :
    (S.filter (fun x => x ∉ n :: visited)).length
      < (S.filter (fun x => x ∉ visited)).length := by
  induction S with
  | nil => cases hn
  | cons a S2 ih =>
    have hmono : ∀ T : List String,
        (T.filter (fun x => x ∉ n :: visited)).length
          ≤ (T.filter (fun x => x ∉ visited)).length := by
      intro T
      induction T with
      | nil => simp
      | cons b T2 ihT =>
        simp only [List.filter_cons]
        by_cases hbv : b ∈ visited
        · rw [if_neg (by simp [hbv]), if_neg (by simp [hbv])]
          exact ihT
        · by_cases hbn : b = n
          · rw [if_neg (by simp [hbn])]
            rw [if_pos (by simp [hbv])]
            simp only [List.length_cons]
            omega
          · rw [if_pos (by simp [hbv, hbn]), if_pos (by simp [hbv])]
            simp only [List.length_cons]
            omega
    rcases List.mem_cons.1 hn with he | hmem
    · subst he
      simp only [List.filter_cons]
      rw [if_neg (by simp), if_pos (by simp [hnv])]
      simp only [List.length_cons]
      have := hmono S2
      omega
    · simp only [List.filter_cons]
      by_cases hav : a ∈ visited
      · rw [if_neg (by simp [hav]), if_neg (by simp [hav])]
        exact ih hmem
      · by_cases han : a = n
        · rw [if_neg (by simp [han]), if_pos (by simp [hav])]
          simp only [List.length_cons]
          have := hmono S2
          omega
        · rw [if_pos (by simp [hav, han]), if_pos (by simp [hav])]
          simp only [List.length_cons]
          have := ih hmem
          omega

/-- `dropUntil` returns the suffix of the stack headed by the sought
entry. -/
theorem dropUntil_spec (n : String) :
    ∀ stack : List String, n ∈ stack →
    (∃ pre, stack = pre ++ dropUntil n stack) ∧ (∃ t, dropUntil n stack = n :: t) := by
  intro stack
  induction stack with
  | nil => intro h; cases h
  | cons x xs ih =>
    intro hn
    by_cases hxn : x = n
    · subst hxn
      rw [dropUntil, if_pos rfl]
      exact ⟨⟨[], rfl⟩, ⟨xs, rfl⟩⟩
    · have hmem : n ∈ xs := by
        rcases List.mem_cons.1 hn with he | hm
        · exact absurd he.symm hxn
        · exact hm
      obtain ⟨⟨pre, hpre⟩, ⟨t, ht⟩⟩ := ih hmem
      rw [dropUntil, if_neg hxn]
      exact ⟨⟨x :: pre, by rw [List.cons_append, ← hpre]⟩, ⟨t, ht⟩⟩

/-- Any cycle reported by the DFS visitor under a chained stack is a
genuine dependency cycle. -/
theorem dfsVisit_sound (deps : String → List String) (S : List String) :
    ∀ (fuel : Nat) (n : String) (stack visited : List String)
    (c v : List String),
    List.Chain' (fun u w => w ∈ deps u) (stack ++ [n]) →
    dfsVisit deps S fuel n stack visited = (some c, v) →
    IsCycle deps c := by
  intro fuel
  induction fuel with
  | zero =>
    intro n stack visited c v _ h
    rw [dfsVisit] at h
    cases h
  | succ fuel ih =>
    intro n stack visited c v hch h
    rw [dfsVisit] at h
    by_cases hst : stack.contains n
    · rw [if_pos hst] at h
      have hc : c = dropUntil n stack ++ [n] := by
        have := congrArg Prod.fst h
        simpa using this.symm
      have hnst : n ∈ stack := by simpa using hst
      obtain ⟨⟨pre, hpre⟩, ⟨t, ht⟩⟩ := dropUntil_spec n stack hnst
      subst hc
      refine ⟨?_, ?_, ?_⟩
      · rw [ht]
        simp
      · rw [ht, List.getLast?_concat]
        rfl
      · have hsplit : stack ++ [n] = pre ++ (dropUntil n stack ++ [n]) := by
          conv_lhs => rw [hpre]
          simp [List.append_assoc]
        rw [hsplit] at hch
        exact hch.right_of_append
    · rw [if_neg hst] at h
      by_cases hv : visited.contains n
      · rw [if_pos hv] at h
        cases h
      · rw [if_neg hv] at h
        have hlastn : (stack ++ [n]).getLast? = some n := List.getLast?_concat _
        have hchild : ∀ d ∈ (deps n).filter (fun d => S.contains d),
            List.Chain' (fun u w => w ∈ deps u) ((stack ++ [n]) ++ [d]) := by
          intro d hd
          have hdd : d ∈ deps n := (List.mem_filter.1 hd).1
          refine List.chain'_append.2 ⟨hch, List.chain'_singleton d, ?_⟩
          intro x hx y hy
          have hx2 : n = x := by rw [hlastn] at hx; simpa using hx
          have hy2 : d = y := by simpa using hy
          rw [← hx2, ← hy2]
          exact hdd
        revert h
        generalize hds : (deps n).filter (fun d => S.contains d) = ds
        rw [hds] at hchild
        clear hds
        generalize n :: visited = w
        induction ds generalizing w with
        | nil =>
          intro h
          rw [dfsChildren] at h
          cases h
        | cons d ds2 ihds =>
          intro h
          rw [dfsChildren] at h
          rcases hdv : dfsVisit deps S fuel d (stack ++ [n]) w with ⟨oc, v2⟩
          rw [hdv] at h
          match oc, h with
          | some c2, h =>
            have hcc : c2 = c := by
              have := congrArg Prod.fst h
              simpa using this
            rw [← hcc]
            exact ih d (stack ++ [n]) w c2 v2 (hchild d (by simp)) (hcc ▸ hdv)
          | none, h =>
            exact ihds (fun d2 hd2 => hchild d2 (List.mem_cons_of_mem d hd2)) v2 h

/-- Completeness of the first DFS run: when every member of the restricted
set keeps a dependency inside the set, a visit of a fresh node whose
visited set equals its stack finds a cycle. -/
theorem dfsVisit_complete (deps : String → List String) (S : List String)
    (hlive : ∀ m ∈ S, ∃ d, d ∈ deps m ∧ d ∈ S) :
    ∀ (fuel : Nat) (n : String) (stack visited : List String),
    n ∈ S → n ∉ visited →
    (∀ x, x ∈ visited ↔ x ∈ stack) →
    (S.filter (fun x => x ∉ visited)).length < fuel →
    (dfsVisit deps S fuel n stack visited).1.isSome := by
  intro fuel
  induction fuel with
  | zero =>
    intro n stack visited _ _ _ hm
    omega
  | succ fuel ih =>
    intro n stack visited hnS hnv hiv hm
    rw [dfsVisit]
    by_cases hst : stack.contains n
    · rw [if_pos hst]
      rfl
    · rw [if_neg hst]
      have hnv2 : ¬ visited.contains n := by
        simpa using hnv
      rw [if_neg hnv2]
      obtain ⟨d, hdn, hdS⟩ := hlive n hnS
      have hds : d ∈ (deps n).filter (fun d => S.contains d) := by
        rw [List.mem_filter]
        exact ⟨hdn, by simpa using hdS⟩
      rcases hds2 : (deps n).filter (fun d => S.contains d) with _ | ⟨d0, ds2⟩
      · rw [hds2] at hds
        cases hds
      · have hd0S : d0 ∈ S := by
          have : d0 ∈ (deps n).filter (fun d => S.contains d) := by
            rw [hds2]
            exact List.mem_cons_self d0 ds2
          have := (List.mem_filter.1 this).2
          simpa using this
        rw [dfsChildren]
        have hmeas : (S.filter (fun x => x ∉ n :: visited)).length < fuel := by
          have := filter_visited_lt S visited n hnS hnv
          omega
        by_cases hd0st : (stack ++ [n]).contains d0
        · rcases hfuel2 : fuel with _ | fuel2
          · omega
          · rw [dfsVisit, if_pos hd0st]
            rfl
        · have hd0v : d0 ∉ n :: visited := by
            intro hmem
            apply hd0st
            rcases List.mem_cons.1 hmem with he | hm2
            · simp [he]
            · simp [(hiv d0).1 hm2]
          have hiv2 : ∀ x, x ∈ n :: visited ↔ x ∈ stack ++ [n] := by
            intro x
            constructor
            · intro hx
              rcases List.mem_cons.1 hx with he | hm2
              · simp [he]
              · simp [(hiv x).1 hm2]
            · intro hx
              rcases List.mem_append.1 hx with hm2 | he
              · exact List.mem_cons_of_mem n ((hiv x).2 hm2)
              · simp at he
                simp [he]
          have hsome := ih d0 (stack ++ [n]) (n :: visited) hd0S hd0v hiv2 hmeas
          rcases hres : dfsVisit deps S fuel d0 (stack ++ [n]) (n :: visited) with ⟨oc, v2⟩
          rw [hres] at hsome
          match oc, hsome with
          | some c2, _ => rfl

/-- Any cycle returned by `_find_cycle` is a genuine dependency cycle. -/
theorem find_cycle_go_sound (deps : String → List String) (S : List String) :
    ∀ (l visited c : List String),
    find_cycle.go deps S l visited = some c → IsCycle deps c := by
  intro l
  induction l with
  | nil =>
    intro visited c h
    rw [find_cycle.go] at h
    cases h
  | cons n rest ih =>
    intro visited c h
    rw [find_cycle.go] at h
    by_cases hv : visited.contains n
    · rw [if_pos hv] at h
      exact ih visited c h
    · rw [if_neg hv] at h
      rcases hdv : dfsVisit deps S (S.length + 1) n [] visited with ⟨oc, v⟩
      rw [hdv] at h
      match oc, h with
      | some c2, h =>
        have hcc : c2 = c := by simpa using h
        rw [← hcc]
        exact dfsVisit_sound deps S (S.length + 1) n [] visited c2 v
          (by simpa using List.chain'_singleton n) (hcc ▸ hdv)
      | none, h =>
        exact ih v c h

/-- When the restricted set is nonempty and every member keeps a
dependency inside the set, `_find_cycle` surfaces a genuine cycle. -/
theorem find_cycle_spec (deps : String → List String) (S : List String)
    (hSne : S ≠ [])
    (hlive : ∀ m ∈ S, ∃ d, d ∈ deps m ∧ d ∈ S) :
    ∃ c, find_cycle deps S = some c ∧ IsCycle deps c := by
  obtain ⟨n, rest, hS⟩ : ∃ n rest, S = n :: rest := by
    rcases S with _ | ⟨n, rest⟩
    · exact absurd rfl hSne
    · exact ⟨n, rest, rfl⟩
  subst hS
  have hnS : n ∈ n :: rest := by simp
  have hmeas : ((n :: rest).filter (fun x => x ∉ ([] : List String))).length
      < (n :: rest).length + 1 := by
    have : (n :: rest).filter (fun x => x ∉ ([] : List String)) = n :: rest :=
      List.filter_eq_self.2 (fun d _ => by simp)
    rw [this]
    omega
  have hsome := dfsVisit_complete deps (n :: rest) hlive ((n :: rest).length + 1)
    n [] [] hnS (by simp) (by simp) hmeas
  rw [find_cycle, find_cycle.go, if_neg (by simp)]
  rcases hdv : dfsVisit deps (n :: rest) ((n :: rest).length + 1) n [] [] with ⟨oc, v⟩
  rw [hdv] at hsome
  match oc, hsome with
  | some c2, _ =>
    refine ⟨c2, rfl, ?_⟩
    exact dfsVisit_sound deps (n :: rest) ((n :: rest).length + 1) n [] [] c2 v
      (by simpa using List.chain'_singleton n) hdv

/-- When the dependency relation restricted to the collected names has a
cycle, `_compute_topological_order` raises CircularReferenceError carrying
a concrete genuine cycle. -/
theorem compute_topo_cycle (names : List String) (deps : String → List String)
    (hnames : names.Nodup) (hdnodup : ∀ a, (deps a).Nodup)
    (hdsub : ∀ a ∈ names, ∀ d ∈ deps a, d ∈ names)
    (c0 : List String) (hc0 : IsCycle deps c0) (hc0n : ∀ z ∈ c0, z ∈ names) :
    ∃ c, compute_topological_order names deps
        = .error (.circularReferenceError (some c))
      ∧ IsCycle deps c := by
  obtain ⟨htopo, hnd, hsubn, hlivep⟩ := kahnRun_spec names deps hnames hdnodup
  have hlne : ¬ ((kahnRun names deps).1.length = names.length) := by
    intro hlen
    have hall := sel_complete names (kahnRun names deps).1 hnd hsubn hlen
    exact cycle_not_topo deps (kahnRun names deps).1 hnd htopo c0 hc0
      (fun z hz => hall z (hc0n z hz))
  have hUmem : ∀ x, x ∈ names.filter (fun n => !(kahnRun names deps).1.contains n)
      ↔ (x ∈ names ∧ x ∉ (kahnRun names deps).1) := by
    intro x
    rw [List.mem_filter]
    constructor
    · intro ⟨h1, h2⟩
      refine ⟨h1, ?_⟩
      simpa using h2
    · intro ⟨h1, h2⟩
      refine ⟨h1, ?_⟩
      simpa using h2
  have hlive : ∀ m ∈ names.filter (fun n => !(kahnRun names deps).1.contains n),
      ∃ d, d ∈ deps m ∧ d ∈ names.filter (fun n => !(kahnRun names deps).1.contains n) := by
    intro m hm
    obtain ⟨hmn, hmp⟩ := (hUmem m).1 hm
    obtain ⟨d, hd1, hd2⟩ := hlivep m hmn hmp
    exact ⟨d, hd1, (hUmem d).2 ⟨hdsub m hmn d hd1, hd2⟩⟩
  have hUne : names.filter (fun n => !(kahnRun names deps).1.contains n) ≠ [] := by
    intro hU
    apply hlne
    have hsubp : ∀ x ∈ names, x ∈ (kahnRun names deps).1 := by
      intro x hx
      by_contra hxp
      have : x ∈ names.filter (fun n => !(kahnRun names deps).1.contains n) :=
        (hUmem x).2 ⟨hx, hxp⟩
      rw [hU] at this
      cases this
    have h1 := (List.subperm_of_subset hnd hsubn).length_le
    have h2 := (List.subperm_of_subset hnames hsubp).length_le
    omega
  obtain ⟨c, hfc, hcyc⟩ := find_cycle_spec deps
    (names.filter (fun n => !(kahnRun names deps).1.contains n)) hUne hlive
  refine ⟨c, ?_, hcyc⟩
  rw [compute_topological_order]
  rw [if_neg hlne, hfc]

/-- Appending a not-yet-registered name keeps the key list duplicate-free. -/
theorem acc_append_nodup (acc : List (String × ResolutionNode)) (nm : String)
    (node : ResolutionNode)
    (hf : acc.find? (fun e => e.1 = nm) = none)
    (hn : (acc.map Prod.fst).Nodup) :
    ((acc ++ [(nm, node)]).map Prod.fst).Nodup := by
  have hfu := List.find?_eq_none.1 hf
  rw [List.map_append, List.nodup_append]
  refine ⟨hn, by simp, ?_⟩
  intro x hx hx2
  have hx3 : x = nm := by simpa using hx2
  obtain ⟨a, ha, hax⟩ := List.mem_map.1 hx
  exact (by simpa using hfu a ha : ¬ a.1 = nm) (hax.trans hx3)

mutual
/-- `_collect_nodes` extends its accumulator and keeps the registered
names duplicate-free. -/
theorem collectNodes_acc : ∀ (n : ResolutionNode)
    (acc out : List (String × ResolutionNode)),
    collectNodes n acc = .ok out →
    (∃ ext, out = acc ++ ext)
    ∧ ((acc.map Prod.fst).Nodup → (out.map Prod.fst).Nodup)
  | .mk (.prim pv) r v tc p al rs, acc, out => by
    intro h
    rw [collectNodes] at h
    split at h
    · split at h
      · cases h
        exact ⟨⟨[], by simp⟩, fun hn => hn⟩
      · cases h
    · rename_i heq
      cases h
      exact ⟨⟨[((ResolutionNode.mk (.prim pv) r v tc p al rs).name,
          ResolutionNode.mk (.prim pv) r v tc p al rs)], rfl⟩,
        fun hn => acc_append_nodup acc _ _ heq hn⟩
  | .mk (.dict d) r v tc p al rs, acc, out => by
    intro h
    rw [collectNodes] at h
    split at h
    · split at h
      · cases h
        exact ⟨⟨[], by simp⟩, fun hn => hn⟩
      · cases h
    · rename_i heq
      obtain ⟨⟨ext, hext⟩, hnodup2⟩ := collectDict_acc d _ out h
      refine ⟨⟨((ResolutionNode.mk (.dict d) r v tc p al rs).name,
          ResolutionNode.mk (.dict d) r v tc p al rs) :: ext, by rw [hext]; simp⟩, ?_⟩
      intro hn
      exact hnodup2 (acc_append_nodup acc _ _ heq hn)
  | .mk (.arr l) r v tc p al rs, acc, out => by
    intro h
    rw [collectNodes] at h
    split at h
    · split at h
      · cases h
        exact ⟨⟨[], by simp⟩, fun hn => hn⟩
      · cases h
    · rename_i heq
      obtain ⟨⟨ext, hext⟩, hnodup2⟩ := collectList_acc l _ out h
      refine ⟨⟨((ResolutionNode.mk (.arr l) r v tc p al rs).name,
          ResolutionNode.mk (.arr l) r v tc p al rs) :: ext, by rw [hext]; simp⟩, ?_⟩
      intro hn
      exact hnodup2 (acc_append_nodup acc _ _ heq hn)

theorem collectDict_acc : ∀ (d : NDict)
    (acc out : List (String × ResolutionNode)),
    collectDict d acc = .ok out →
    (∃ ext, out = acc ++ ext)
    ∧ ((acc.map Prod.fst).Nodup → (out.map Prod.fst).Nodup)
  | .nil, acc, out => by
    intro h
    rw [collectDict] at h
    cases h
    exact ⟨⟨[], by simp⟩, fun hn => hn⟩
  | .cons k child rest, acc, out => by
    intro h
    rw [collectDict] at h
    rcases hc : collectNodes child acc with e | acc2
    · rw [hc] at h
      cases h
    · rw [hc] at h
      obtain ⟨⟨ext1, hext1⟩, hn1⟩ := collectNodes_acc child acc acc2 hc
      obtain ⟨⟨ext2, hext2⟩, hn2⟩ := collectDict_acc rest acc2 out h
      exact ⟨⟨ext1 ++ ext2, by rw [hext2, hext1, List.append_assoc]⟩,
        fun hn => hn2 (hn1 hn)⟩

theorem collectList_acc : ∀ (l : NList)
    (acc out : List (String × ResolutionNode)),
    collectList l acc = .ok out →
    (∃ ext, out = acc ++ ext)
    ∧ ((acc.map Prod.fst).Nodup → (out.map Prod.fst).Nodup)
  | .nil, acc, out => by
    intro h
    rw [collectList] at h
    cases h
    exact ⟨⟨[], by simp⟩, fun hn => hn⟩
  | .cons child rest, acc, out => by
    intro h
    rw [collectList] at h
    rcases hc : collectNodes child acc with e | acc2
    · rw [hc] at h
      cases h
    · rw [hc] at h
      obtain ⟨⟨ext1, hext1⟩, hn1⟩ := collectNodes_acc child acc acc2 hc
      obtain ⟨⟨ext2, hext2⟩, hn2⟩ := collectList_acc rest acc2 out h
      exact ⟨⟨ext1 ++ ext2, by rw [hext2, hext1, List.append_assoc]⟩,
        fun hn => hn2 (hn1 hn)⟩
end

/-- `_build_unified_dependencies` keeps the collected keys in order, stores
each node's deduplicated dependency set, every stored dependency names a
collected node, and lookups align with the node table. -/
theorem buildDependenciesGo_spec (names : List String) :
    ∀ (l : List (String × ResolutionNode)) (dl : List (String × List String)),
    buildDependenciesGo names l = .ok dl →
    dl.map Prod.fst = l.map Prod.fst
    ∧ (∀ e ∈ dl, ∃ nd, (e.1, nd) ∈ l ∧ e.2 = (nodeDepList nd).dedup
        ∧ ∀ d ∈ e.2, d ∈ names)
    ∧ (∀ nm e, l.find? (fun x => x.1 = nm) = some e →
        dl.find? (fun x => x.1 = nm) = some (e.1, (nodeDepList e.2).dedup)) := by
  intro l
  induction l with
  | nil =>
    intro dl h
    rw [buildDependenciesGo] at h
    cases h
    refine ⟨rfl, ?_, ?_⟩
    · intro e he
      cases he
    · intro nm e he
      cases he
  | cons a rest ih =>
    intro dl h
    rw [buildDependenciesGo] at h
    split at h
    · rename_i hall
      rcases hrec : buildDependenciesGo names rest with er | dl2
      · rw [hrec] at h
        cases h
      · rw [hrec] at h
        cases h
        obtain ⟨hmap, hent, hfind⟩ := ih dl2 hrec
        refine ⟨?_, ?_, ?_⟩
        · simp [hmap]
        · intro e he
          rcases List.mem_cons.1 he with he1 | he2
          · refine ⟨a.2, ?_, ?_, ?_⟩
            · rw [he1]
              exact List.mem_cons_self a rest
            · rw [he1]
            · intro d hd
              rw [he1] at hd
              have hd2 : d ∈ nodeDepList a.2 := List.mem_dedup.1 hd
              have := List.all_eq_true.1 hall d hd2
              simpa using this
          · obtain ⟨nd, h1, h2, h3⟩ := hent e he2
            exact ⟨nd, List.mem_cons_of_mem a h1, h2, h3⟩
        · intro nm e he
          by_cases hanm : a.1 = nm
          · rw [List.find?_cons_of_pos _ (by simpa using hanm)] at he
            cases he
            rw [List.find?_cons_of_pos _ (by simpa using hanm)]
          · rw [List.find?_cons_of_neg _ (by simpa using hanm)] at he
            rw [List.find?_cons_of_neg _ (by simpa using hanm)]
            exact hfind nm e he
    · cases h

/-- Every entry of a dependency chain after the head is an edge target. -/
theorem chain_targets (deps : String → List String) (names : List String)
    (htgt : ∀ x y, y ∈ deps x → y ∈ names) :
    ∀ (l : List String) (a : String),
    List.Chain' (fun u w => w ∈ deps u) (a :: l) → ∀ z ∈ l, z ∈ names := by
  intro l
  induction l with
  | nil =>
    intro a _ z hz
    cases hz
  | cons x rest ih =>
    intro a hch z hz
    have hax : x ∈ deps a := (List.chain'_cons.1 hch).1
    rcases List.mem_cons.1 hz with he | hm
    · exact he ▸ htgt a x hax
    · exact ih x (List.chain'_cons.1 hch).2 z hm

/-- Every node of a dependency cycle names an edge endpoint. -/
theorem cycle_mem (deps : String → List String) (names : List String)
    (hedge : ∀ x y, y ∈ deps x → x ∈ names ∧ y ∈ names) :
    ∀ c, IsCycle deps c → ∀ z ∈ c, z ∈ names := by
  intro c hc z hz
  obtain ⟨hlen, hhl, hch⟩ := hc
  rcases c with _ | ⟨a, l⟩
  · cases hz
  · rcases l with _ | ⟨b, l2⟩
    · simp at hlen
    · have hab : b ∈ deps a := (List.chain'_cons.1 hch).1
      rcases List.mem_cons.1 hz with he | hm
      · exact he ▸ (hedge a b hab).1
      · exact chain_targets deps names (fun x y hy => (hedge x y hy).2) (b :: l2) a hch z hm

/-- Facts about the collected node table and the unified dependency
table: duplicate-free names, duplicate-free dependency sets, dependency
targets and edge endpoints among the names, and lookup alignment. -/
theorem graph_tables_facts (root : ResolutionNode)
    (collected : List (String × ResolutionNode))
    (dl : List (String × List String))
    (hcol : collectNodes root [] = .ok collected)
    (hdl : buildDependencies collected = .ok dl) :
    (collected.map Prod.fst).Nodup
    ∧ (∀ a, (depsOfAssoc dl a).Nodup)
    ∧ (∀ x y, y ∈ depsOfAssoc dl x →
        x ∈ collected.map Prod.fst ∧ y ∈ collected.map Prod.fst)
    ∧ (∀ nm e, collected.find? (fun x => x.1 = nm) = some e →
        depsOfAssoc dl nm = (nodeDepList e.2).dedup) := by
  have hnames : (collected.map Prod.fst).Nodup :=
    (collectNodes_acc root [] collected hcol).2 (by simp)
  rw [buildDependencies] at hdl
  obtain ⟨hkeys, hent, halign⟩ :=
    buildDependenciesGo_spec (collected.map Prod.fst) collected dl hdl
  refine ⟨hnames, ?_, ?_, ?_⟩
  · intro a
    rw [depsOfAssoc]
    rcases hf : dl.find? (fun e => e.1 = a) with _ | e
    · rw [hf]
      exact List.nodup_nil
    · rw [hf]
      obtain ⟨nd, hmem, he2, hsub⟩ := hent e (List.mem_of_find?_eq_some hf)
      show e.2.Nodup
      rw [he2]
      exact List.nodup_dedup _
  · intro x y hy
    rw [depsOfAssoc] at hy
    rcases hf : dl.find? (fun e => e.1 = x) with _ | e
    · rw [hf] at hy
      cases hy
    · rw [hf] at hy
      have hex : e.1 = x := by simpa using List.find?_some hf
      obtain ⟨nd, hmemc, he2, hsub⟩ := hent e (List.mem_of_find?_eq_some hf)
      refine ⟨?_, hsub y hy⟩
      rw [← hex]
      exact List.mem_map.2 ⟨(e.1, nd), hmemc, rfl⟩
  · intro nm e he
    have := halign nm e he
    rw [depsOfAssoc, this]

/-- C1: whenever DependencyGraph construction succeeds, the emitted queue
is a topological order of the dependency edges: the node registered under
any queue entry has each of its dependencies (content children and, for a
reference node, the reference target) strictly earlier in the queue. -/
theorem c1_theorem (root : ResolutionNode) (g : DependencyGraph)
    (h : DependencyGraph.build root = .ok g)
    (i : Fin g.queue.length) (node : ResolutionNode)
    (hnode : g.nodes.find? (fun e => e.1 = g.queue.get i) = some (g.queue.get i, node))
    (d : String) (hd : d ∈ nodeDepList node) :
    ∃ j : Fin g.queue.length, j.val < i.val ∧ g.queue.get j = d := by
  rw [DependencyGraph.build] at h
  rcases hcol : collectNodes root [] with e | collected
  · rw [hcol] at h
    cases h
  · simp only [hcol] at h
    rcases hdl : buildDependencies collected with e | dl
    · simp only [hdl] at h
      cases h
    · simp only [hdl] at h
      rcases hcto : compute_topological_order (collected.map Prod.fst) (depsOfAssoc dl)
        with e | q
      · simp only [hcto] at h
        cases h
      · simp only [hcto] at h
        cases h
        obtain ⟨hnames, hdnodup, hedge, hlook⟩ :=
          graph_tables_facts root collected dl hcol hdl
        have hq : q = (kahnRun (collected.map Prod.fst) (depsOfAssoc dl)).1 := by
          rw [compute_topological_order] at hcto
          split at hcto
          · simpa using hcto.symm
          · cases hcto
        obtain ⟨htopo, _, _, _⟩ :=
          kahnRun_spec (collected.map Prod.fst) (depsOfAssoc dl) hnames hdnodup
        rw [← hq] at htopo
        have hdeps : depsOfAssoc dl (q.get i) = (nodeDepList node).dedup := by
          have := hlook (q.get i) (q.get i, node) hnode
          simpa using this
        have hdq : d ∈ depsOfAssoc dl (q.get i) := by
          rw [hdeps]
          exact List.mem_dedup.2 hd
        exact htopo i d hdq

/-- C1 witness: in the graph built from the two-node tree, the root node
(queue position 1) has its only dependency, the child, strictly earlier. -/
theorem c1_witness :
    ∃ j : Fin gSmall.queue.length, j.val < 1 ∧ gSmall.queue.get j = "::root::c1" :=
  c1_theorem smallRoot gSmall rfl ⟨1, by decide⟩ smallRoot rfl "::root::c1" (by decide)

/-- C2: when the dependency edges of a collected tree contain a cycle,
DependencyGraph construction raises CircularReferenceError whose payload
lists a concrete genuine cycle in edge order. -/
theorem c2_theorem (root : ResolutionNode)
    (collected : List (String × ResolutionNode)) (dl : List (String × List String))
    (hcol : collectNodes root [] = .ok collected)
    (hdl : buildDependencies collected = .ok dl)
    (c0 : List String) (hcyc0 : IsCycle (depsOfAssoc dl) c0) :
    ∃ c, DependencyGraph.build root = .error (.circularReferenceError (some c))
      ∧ IsCycle (depsOfAssoc dl) c := by
  obtain ⟨hnames, hdnodup, hedge, hlook⟩ := graph_tables_facts root collected dl hcol hdl
  have hdsub : ∀ a ∈ collected.map Prod.fst, ∀ d ∈ depsOfAssoc dl a,
      d ∈ collected.map Prod.fst :=
    fun a _ d hd => (hedge a d hd).2
  have hc0n : ∀ z ∈ c0, z ∈ collected.map Prod.fst :=
    cycle_mem (depsOfAssoc dl) (collected.map Prod.fst) hedge c0 hcyc0
  obtain ⟨c, hcto, hcyc⟩ := compute_topo_cycle (collected.map Prod.fst) (depsOfAssoc dl)
    hnames hdnodup hdsub c0 hcyc0 hc0n
  refine ⟨c, ?_, hcyc⟩
  rw [DependencyGraph.build]
  simp only [hcol, hdl, hcto]

/-- C2 witness: the three-node reference cycle raises
CircularReferenceError carrying a genuine cycle. -/
theorem c2_witness :
    ∃ c, DependencyGraph.build cycleRoot = .error (.circularReferenceError (some c))
      ∧ IsCycle (depsOfAssoc dlCycle) c :=
  c2_theorem cycleRoot collectedCycle dlCycle rfl rfl
    ["::ref1", "::ref2", "::ref3", "::ref1"]
    ⟨by decide, by decide,
     List.chain'_cons.2 ⟨by decide, List.chain'_cons.2 ⟨by decide,
       List.chain'_cons.2 ⟨by decide, List.chain'_singleton _⟩⟩⟩⟩

-- ======================================================================
-- C4 development: the serialize / resolve round-trip law on the flat
-- universe.
-- ======================================================================

theorem retrieve_nil (t : Ty) : retrieve [] t = none := rfl

theorem apply_rootD (env : FEnv) (scope : String) (S : Ty) (fl : FieldList)
    (fields : VDict) :
    FactorySystem.apply env (rootD scope S fl fields) = .ok (rootD scope S fl fields) := rfl

end Omniconfig
